import Mathlib

/-!
Verification of the koa-express-router dispatch engine (src/lib/index.js,
src/lib/Route.js, src/lib/Layer.js) via a shallow embedding.

JavaScript objects holding request parameters are modelled as insertion-ordered
association lists whose values are `Option String` (`none` models a property
stored with value `undefined`); absence of the pair models absence of the
property.  The external path-pattern compiler (path-to-regexp) is modelled as a
function field `exec` on a layer, and `decodeURIComponent` as an explicit
function argument `dec : String → Option String` (`none` models a thrown
`URIError`).  Handlers, query predicates and parameter callbacks are modelled
as explicit behaviour values so dispatch is a pure function.
-/

/-- Property key of a JS object: positional (numeric) or named (string). -/
inductive PKey where
  | num (n : Nat)
  | str (s : String)
deriving DecidableEq

/-- A JS object used as a parameter mapping: insertion-ordered assoc list.
A stored value of `none` models a property present with value `undefined`. -/
abbrev ParamMap := List (PKey × Option String)

/-- Property lookup distinguishing absence (`none`) from a stored `undefined`
(`some none`). -/
def plookup (m : ParamMap) (k : PKey) : Option (Option String) :=
  (m.find? (fun e => e.1 = k)).map (·.2)

/-- `k in m`: JS `in` operator (presence of the property). -/
def phas (m : ParamMap) (k : PKey) : Bool :=
  (m.find? (fun e => e.1 = k)).isSome

/-- JS property read `m[k]`: an absent property reads as `undefined`. -/
def pread (m : ParamMap) (k : PKey) : Option String :=
  (plookup m k).join

/-- JS property write `m[k] = v`: updates the first occurrence in place,
otherwise appends (insertion order of JS objects). -/
def pset (m : ParamMap) (k : PKey) (v : Option String) : ParamMap :=
  match m with
  | [] => [(k, v)]
  | e :: rest => if e.1 = k then (k, v) :: rest else e :: pset rest k v

/-- JS `delete m[k]`. -/
def pdel (m : ParamMap) (k : PKey) : ParamMap :=
  m.filter (fun e => ¬ (e.1 = k))

/-- `Object.assign(base, overlay)`: copy each property of `overlay` onto
`base` in the overlay's enumeration order. -/
def passign (base : ParamMap) : ParamMap → ParamMap
  | [] => base
  | (k, v) :: rest => passign (pset base k v) rest

/-- JS truthiness of a possibly-undefined string (`undefined` and `""` are
falsy). -/
def sigTruthy : Option String → Bool
  | none => false
  | some s => s ≠ ""

/-- Coercion of the printed key name, as JS coerces a numeric `key.name` used
as an object index to a string. -/
def pkeyStr : PKey → String
  | .num n => toString n
  | .str s => s

/-- The actual query of a request: a mapping from query keys to string
values. -/
abbrev QueryMap := List (String × String)

/-- JS read `query[k]` on the actual query object. -/
def qget (q : QueryMap) (k : String) : Option String :=
  (q.find? (fun e => e.1 = k)).map (·.2)

/-- A declared query-condition value, by the type dispatch of the `query`
setter in Layer.js: string, RegExp (modelled by its test on the coerced
string), array of strings, predicate function, or anything else (compared to
`JSON.parse` of the actual value, modelled abstractly by a predicate that is
false when parsing fails). -/
inductive QVal where
  | qstr (s : String)
  | qregexp (test : String → Bool)
  | qarr (elems : List String)
  | qfunc (f : Option String → Bool)
  | qother (eqParsed : Option String → Bool)

/-- A declared query condition: the setter stores `undefined` for a missing or
empty object, so a present condition is a nonempty key/value list in declared
order. -/
abbrev QueryCond := Option (List (String × QVal))

/-- One recorded invocation of a function-valued query predicate:
(declared key, actual query value passed to it). -/
abbrev QEv := String × Option String

/-- JS coercion used by `RegExp.exec(actual)` when `actual` is `undefined`. -/
def coerceStr : Option String → String
  | none => "undefined"
  | some s => s

/-- One checker application, per the checker table installed by the `query`
setter of Layer.js.  Returns the boolean outcome and the invocation events of
function-valued predicates. -/
def queryCheck (v : QVal) (actual : Option String) (key : String) :
    Bool × List QEv :=
  match v with
  | .qstr s => (actual = some s, [])
  | .qregexp t => (t (coerceStr actual), [])
  | .qarr es => (match actual with | some a => es.contains a | none => false, [])
  | .qfunc f => (f actual, [(key, actual)])
  | .qother p => (p actual, [])

/-- `Layer.queryMatch(actualQuery)`: vacuously true without a condition,
otherwise `queryKeys.every(...)` in declared order with short-circuit.
Instrumented with the list of function-predicate invocations. -/
def queryMatchEv (cond : QueryCond) (q : QueryMap) : Bool × List QEv :=
  match cond with
  | none => (true, [])
  | some kvs => go kvs []
where
  go : List (String × QVal) → List QEv → Bool × List QEv
    | [], evs => (true, evs)
    | (k, v) :: rest, evs =>
      let (ok, ev) := queryCheck v (qget q k) k
      if ok then go rest (evs ++ ev) else (false, evs ++ ev)

/-- `decode_param(val)` of Layer.js parameterized by the external
`decodeURIComponent` (`dec`, `none` = throws): a non-string (undefined) or
empty value is returned unchanged; the outer `none` models the re-thrown
decoding error. -/
def decode_param (dec : String → Option String) : Option String → Option (Option String)
  | none => some none
  | some v => if v = "" then some (some "") else (dec v).map some

/-- A Layer as the matcher data relevant to `match`: the compiled matcher
`exec` (matched prefix and capture list), the two fast-path flags, the ordered
capture-key list, and the optional query condition. -/
structure LayerM where
  exec : String → Option (String × List (Option String))
  fast_slash : Bool
  fast_star : Bool
  keys : List PKey
  query : QueryCond

/-- The capture-storing loop of `Layer.match`: decode each capture and store
it under its key unless it is `undefined` and the key was already stored
(`hasOwnProperty` guard).  `none` models a thrown decode error. -/
def buildParams (dec : String → Option String) :
    List PKey → List (Option String) → ParamMap → Option ParamMap
  | _, [], acc => some acc
  | k :: ks, c :: cs, acc =>
    match decode_param dec c with
    | none => none
    | some val =>
      let acc := if val ≠ none ∨ ¬ phas acc k then pset acc k val else acc
      buildParams dec ks cs acc
  | [], _ :: _, _ => none

/-- The scratch fields of a Layer after a `match` call. -/
structure MatchScr where
  params : Option ParamMap
  path : Option String
deriving DecidableEq

/-- Result of `Layer.match`: a thrown decode error, or a boolean together with
the scratch left on the layer; both carry the query-predicate invocation
events. -/
inductive MatchRes where
  | threw (evs : List QEv)
  | ret (b : Bool) (scr : MatchScr) (evs : List QEv)
deriving DecidableEq

/-- The query-predicate invocation events of a match result. -/
def MatchRes.evs : MatchRes → List QEv
  | .threw evs => evs
  | .ret _ _ evs => evs

/-- `Layer.match(path, query)` of Layer.js: the query condition is evaluated
first, then the path is matched (fast paths for `/` non-ending and `*`,
otherwise the compiled matcher); on a failed path match the scratch is
cleared, otherwise it is populated and the query outcome is returned. -/
def Layer.matchM (dec : String → Option String) (l : LayerM)
    (path : Option String) (q : QueryMap) : MatchRes :=
  let qe := queryMatchEv l.query q
  match path with
  | some p =>
    if l.fast_slash then .ret qe.1 ⟨some [], some ""⟩ qe.2
    else if l.fast_star then
      match decode_param dec (some p) with
      | none => .threw qe.2
      | some v => .ret qe.1 ⟨some [(.num 0, v)], some p⟩ qe.2
    else
      match l.exec p with
      | none => .ret false ⟨none, none⟩ qe.2
      | some (m0, caps) =>
        match buildParams dec l.keys caps [] with
        | none => .threw qe.2
        | some ps => .ret qe.1 ⟨some ps, some m0⟩ qe.2
  | none => .ret false ⟨none, none⟩ qe.2

/-- ASCII lower-casing of a string (`String.prototype.toLowerCase` on the
method names used here). -/
def strLower (s : String) : String :=
  String.mk (s.toList.map Char.toLower)

/-- ASCII upper-casing of a string (`String.prototype.toUpperCase`). -/
def strUpper (s : String) : String :=
  String.mk (s.toList.map Char.toUpper)

/-- The request context as touched by this engine.  `baseUrl`, `originalUrl`,
`params` may be absent (`none` = JS `undefined`).  `nextv` models the identity
of the function stored in `ctx.next` (the engine installs a fresh one by
incrementing it and restores the saved one on exit).  `route` records the path
of the Route stored by `ctx.route = route`. -/
structure CtxM where
  method : String
  url : String
  query : QueryMap
  baseUrl : Option String
  originalUrl : Option String
  params : Option ParamMap
  nextv : Nat
  route : Option String
  headers : List (String × String)
  body : Option String
deriving DecidableEq

/-- Behaviour of a user middleware handler: either it never invokes its
continuation (`absorb`), or it transforms the context and invokes the
continuation once with a signal (`act`). -/
inductive HandlerBeh where
  | absorb
  | act (f : CtxM → CtxM) (sig : Option String)

/-- One layer of a Route's stack: optional verb tag, optional query condition,
the arity>3 legacy flag checked by `handle_request`, and the handler. -/
structure RouteLayerM where
  method : Option String
  query : QueryCond
  len4 : Bool
  beh : HandlerBeh

/-- A Route: its path, the declared method keys of `this.methods` in
insertion order (every stored value is `true`), and its layer stack. -/
structure RouteM where
  path : String
  methodsList : List String
  stack : List RouteLayerM

/-- `Route._handles_method(method)` of Route.js. -/
def RouteM.handlesMethod (r : RouteM) (method : String) : Bool :=
  if r.methodsList.contains "_all" then true
  else
    let name := strLower method
    let name := if name = "head" ∧ ¬ r.methodsList.contains "head" then "get" else name
    r.methodsList.contains name

/-- `Route._options()` of Route.js: `Object.keys(this.methods)` (insertion
order), `head` appended when `get` is present and `head` is not, then
upper-cased. -/
def RouteM.optionsF (r : RouteM) : List String :=
  let ms := r.methodsList
  let ms := if ms.contains "get" ∧ ¬ ms.contains "head" then ms ++ ["head"] else ms
  ms.map strUpper

/-- Outcome of `Route.dispatch`: either some handler absorbed the request, or
the Route's continuation `next` was invoked once with the given signal. -/
inductive RouteOut where
  | absorbed (ctx : CtxM)
  | called (ctx : CtxM) (sig : Option String)

/-- `layer.method && layer.method !== method`: skip a layer whose verb tag is
present and differs from the effective verb. -/
def layerMethodSkip (l : RouteLayerM) (method : String) : Bool :=
  match l.method with
  | some m => m ≠ method
  | none => false

/-- `routeNext(signal)` of `Route.dispatch` on the remaining layer stack:
`"route"` calls the Route's continuation with no signal, `"router"` propagates
it, an unrecognised or empty signal falls through to the walk; a layer whose
verb tag differs from the effective verb or whose query condition fails is
skipped; `handle_request` skips a handler with more than 3 declared
parameters; otherwise the handler runs with the walk itself as
continuation. -/
def routeNextM (method : String) (ctx : CtxM) (sig : Option String) :
    List RouteLayerM → RouteOut
  | [] =>
    if sig = some "router" then .called ctx sig else .called ctx none
  | l :: rest =>
    if sig = some "route" then .called ctx none
    else if sig = some "router" then .called ctx sig
    else if layerMethodSkip l method then routeNextM method ctx none rest
    else if ¬ (queryMatchEv l.query ctx.query).1 then routeNextM method ctx none rest
    else if l.len4 then routeNextM method ctx none rest
    else
      match l.beh with
      | .absorb => .absorbed ctx
      | .act f s => routeNextM method (f ctx) s rest

/-- `Route.dispatch(ctx, next)` of Route.js: defer immediately with an empty
stack, resolve the effective verb once (HEAD→GET fallback), then walk. -/
def RouteM.dispatchM (r : RouteM) (ctx : CtxM) : RouteOut :=
  if r.stack.isEmpty then .called ctx none
  else
    let method := strLower ctx.method
    let method := if method = "head" ∧ ¬ r.methodsList.contains "head" then "get" else method
    routeNextM method ctx none r.stack

/-- `mergeParams(params, parent)` of index.js, for an object-valued parent:
shallow copy of the parent, simple key-wise merge unless both sides have a
positional property `0`, in which case the child's consecutive positional
indices are shifted by the parent's count (`renumGo`) before merging. -/
def firstGapAux (c : ParamMap) : Nat → Nat → Nat
  | n, 0 => n
  | n, fuel + 1 => if phas c (.num n) then firstGapAux c (n + 1) fuel else n

/-- `while (i in params) i += 1`: the first numeric index not present,
counting up from 0. -/
def firstGap (c : ParamMap) : Nat :=
  firstGapAux c 0 (c.length + 1)

/-- The renumbering loop `for (i -= 1; i >= 0; i -= 1)`: processes indices
`j-1` down to `0`, each step copying `params[i]` to `params[i + o]` and
deleting `params[i]` when `i < o`. -/
def renumGo (o : Nat) : Nat → ParamMap → ParamMap
  | 0, c => c
  | j + 1, c =>
    let c2 := pset c (.num (j + o)) (pread c (.num j))
    renumGo o j (if j < o then pdel c2 (.num j) else c2)

/-- `mergeParams` for an object parent. -/
def mergeParams (params parent : ParamMap) : ParamMap :=
  if ¬ phas params (.num 0) ∨ ¬ phas parent (.num 0) then passign parent params
  else
    let i := firstGap params
    let o := firstGap parent
    passign parent (renumGo o i params)

/-- `mergeParams` including the non-object-parent guard (`parent` undefined
returns the child unchanged). -/
def mergeParamsJS (params : ParamMap) (parent : Option ParamMap) : ParamMap :=
  match parent with
  | none => params
  | some p => mergeParams params p

/-- Behaviour of a registered parameter callback (invoked with
`(ctx, paramCallback, paramVal, name)`): either it never calls its
continuation, or it transforms the context and calls `paramCallback` once
with a signal. -/
inductive PCb where
  | absorb
  | act (f : CtxM → CtxM) (sig : Option String)

/-- The per-request memo entry `called[name]` of `process_params`:
`{signal, match, value}` (`match` renamed `matchVal`). -/
structure PMemoEntry where
  signal : Option String
  matchVal : Option String
  value : Option String
deriving DecidableEq

/-- The per-request memo `paramcalled`, keyed by capture name. -/
abbrev PMemo := List (String × PMemoEntry)

def mlookup (m : PMemo) (name : String) : Option PMemoEntry :=
  (m.find? (fun e => e.1 = name)).map (·.2)

/-- `called[name] = entry` (update in place or append). -/
def mset (m : PMemo) (name : String) (e : PMemoEntry) : PMemo :=
  match m with
  | [] => [(name, e)]
  | p :: rest => if p.1 = name then (name, e) :: rest else p :: mset rest name e

/-- `paramCalled.value = v` for the entry of `name` (mutation of the aliased
record). -/
def msetValue (m : PMemo) (name : String) (v : Option String) : PMemo :=
  match mlookup m name with
  | some e => mset m name { e with value := v }
  | none => m

/-- `paramCalled.signal = s` for the entry of `name`. -/
def msetSignal (m : PMemo) (name : String) (s : Option String) : PMemo :=
  match mlookup m name with
  | some e => mset m name { e with signal := s }
  | none => m

/-- `ctx.params[k]` read through the possibly-absent params object. -/
def cxPread (ctx : CtxM) (k : PKey) : Option String :=
  pread (ctx.params.getD []) k

/-- `ctx.params[k] = v`. -/
def cxPset (ctx : CtxM) (k : PKey) (v : Option String) : CtxM :=
  { ctx with params := some (pset (ctx.params.getD []) k v) }

/-- One recorded parameter-callback invocation: (name, the `paramVal`
argument it receives). -/
abbrev PEv := String × Option String

/-- Result of the `paramCallback` chain for one key: a callback absorbed the
request, a truthy signal was raised (returned to `param` and from there to
the router), or the callback list was exhausted (fall through to the next
key). -/
inductive CbRes where
  | absorbed (ctx : CtxM) (memo : PMemo) (log : List PEv)
  | raise (ctx : CtxM) (memo : PMemo) (log : List PEv) (sig : Option String)
  | fallth (ctx : CtxM) (memo : PMemo) (log : List PEv)
deriving DecidableEq

/-- `paramCallback(signal)` of `process_params` on the remaining registered
callbacks for the current key: it first stores the current `ctx.params[name]`
into the memo entry's `value`; a truthy signal is recorded and raised; with
callbacks exhausted it falls through; otherwise the next callback is invoked
(logged) with this chain as its continuation. -/
def paramCallbackStep (name : String) (k : PKey) (paramVal : Option String)
    (ctx : CtxM) (memo : PMemo) (log : List PEv) (sig : Option String) :
    List PCb → CbRes
  | [] =>
    let memo2 := msetValue memo name (cxPread ctx k)
    if sigTruthy sig then .raise ctx (msetSignal memo2 name sig) log sig
    else .fallth ctx memo2 log
  | cb :: rest =>
    let memo2 := msetValue memo name (cxPread ctx k)
    if sigTruthy sig then .raise ctx (msetSignal memo2 name sig) log sig
    else
      match cb with
      | .absorb => .absorbed ctx memo2 (log ++ [(name, paramVal)])
      | .act f s =>
        paramCallbackStep name k paramVal (f ctx) memo2
          (log ++ [(name, paramVal)]) s rest

/-- Registered parameter callbacks of the Router: `this.params`, keyed by
name. -/
abbrev ParamReg := List (String × List PCb)

def lookupReg (reg : ParamReg) (name : String) : Option (List PCb) :=
  (reg.find? (fun e => e.1 = name)).map (·.2)

/-- Result of `process_params`: a callback absorbed the request, or its `next`
callback was invoked once with the given signal. -/
inductive PPRes where
  | absorbed (ctx : CtxM) (memo : PMemo) (log : List PEv)
  | next (ctx : CtxM) (memo : PMemo) (sig : Option String) (log : List PEv)
deriving DecidableEq

/-- The memo-replay guard of `param()`: the entry matches when the memoized
value equals the current capture, or the memoized signal is truthy and not
`"route"`. -/
def replayGuard (e : PMemoEntry) (v : String) : Bool :=
  e.matchVal = some v ∨ (sigTruthy e.signal ∧ e.signal ≠ some "route")

/-- `param()` of `process_params` over the remaining capture keys: a key with
no value or no registered callbacks is skipped; a memoized entry passing
`replayGuard` restores the stored value and replays the stored signal without
invoking callbacks; otherwise a fresh entry
`{signal: null, match: paramVal, value: paramVal}` is recorded and the
callback chain runs. -/
def paramStep (reg : ParamReg) (ctx : CtxM) (memo : PMemo) (log : List PEv) :
    List PKey → PPRes
  | [] => .next ctx memo none log
  | k :: rest =>
    let name := pkeyStr k
    match lookupReg reg name, cxPread ctx k with
    | none, _ => paramStep reg ctx memo log rest
    | some _, none => paramStep reg ctx memo log rest
    | some cbs, some v =>
      match mlookup memo name with
      | some e =>
        if replayGuard e v then
          let ctx2 := cxPset ctx k e.value
          if sigTruthy e.signal then .next ctx2 memo e.signal log
          else paramStep reg ctx2 memo log rest
        else
          let memo2 := mset memo name ⟨none, some v, some v⟩
          match paramCallbackStep name k (some v) ctx memo2 log none cbs with
          | .absorbed c m l => .absorbed c m l
          | .raise c m l s => .next c m s l
          | .fallth c m l => paramStep reg c m l rest
      | none =>
        let memo2 := mset memo name ⟨none, some v, some v⟩
        match paramCallbackStep name k (some v) ctx memo2 log none cbs with
        | .absorbed c m l => .absorbed c m l
        | .raise c m l s => .next c m s l
        | .fallth c m l => paramStep reg c m l rest

/-- `Router.process_params(layer, called, ctx, next)`: the fast track for a
layer without capture keys coincides with the empty walk. -/
def process_params (reg : ParamReg) (keys : List PKey) (memo : PMemo)
    (ctx : CtxM) : PPRes :=
  paramStep reg ctx memo [] keys

/-- `ctx.set(k, v)`: set a response header, replacing an existing one. -/
def hset (hs : List (String × String)) (k v : String) : List (String × String) :=
  match hs with
  | [] => [(k, v)]
  | e :: rest => if e.1 = k then (k, v) :: rest else e :: hset rest k v

/-- `setOptionsResponse(ctx, options)` of index.js: the comma-joined verb list
becomes the Allow header and the response body. -/
def setOptionsResponse (ctx : CtxM) (options : List String) : CtxM :=
  let body := String.intercalate "," options
  { ctx with headers := hset ctx.headers "Allow" body, body := some body }

/-- `appendMethods(list, addition)` of index.js: append the verbs of
`addition` that are not yet in `list`, in order. -/
def appendMethods (l : List String) : List String → List String
  | [] => l
  | m :: rest => appendMethods (if l.contains m then l else l ++ [m]) rest

/-- First index of character `c` in `cs` at or after `start`
(`String.prototype.indexOf(c, start)`). -/
def findFrom (cs : List Char) (c : Char) (start : Nat) : Option Nat :=
  ((cs.drop start).findIdx? (· = c)).map (· + start)

/-- First index at which `ndl` occurs as a contiguous substring
(`String.prototype.indexOf(ndl)`). -/
def idxOfSubAux (ndl : List Char) : List Char → Nat → Option Nat
  | [], i => if ndl = [] then some i else none
  | h :: t, i =>
    if ndl.isPrefixOf (h :: t) then some i else idxOfSubAux ndl t (i + 1)

/-- `getProtohost(url)` of index.js: the scheme+host part of an absolute URL,
or none.  `url.substr(0, -1)` (no `/` after `://`) yields the empty string. -/
def getProtohost (url : String) : Option String :=
  if url.length = 0 ∨ url.toList.head? = some '/' then none
  else
    let cs := url.toList
    let pathLength := (cs.findIdx? (· = '?')).getD cs.length
    match idxOfSubAux "://".toList (cs.take pathLength) 0 with
    | none => none
    | some fqdnIdx =>
      match findFrom cs '/' (3 + fqdnIdx) with
      | some i => some (String.mk (cs.take i))
      | none => some ""

/-- `getPathname(ctx)` of index.js, modelling the external `parseurl`: no
pathname for an empty/missing URL, otherwise the path+query portion before
`?`, with the scheme+host prefix removed. -/
def getPathname (url : String) : Option String :=
  if url = "" then none
  else some ((url.drop ((getProtohost url).getD "").length).takeWhile (· ≠ '?'))

/-- Behaviour body of a Router-level layer: bare middleware (with the
arity>3 flag of its function) or a mounted Route. -/
inductive RLayerBody where
  | mid (len4 : Bool) (beh : HandlerBeh)
  | rte (r : RouteM)

/-- A Router-level layer: matcher data plus body. -/
structure RLayer where
  layer : LayerM
  body : RLayerBody

/-- The variables of one `Router.handle` invocation that are fixed for its
whole scan: FQDN prefix, parent URL/params, the saved values of the three
restored fields, the `mergeParams` option, the parameter registry, and the
external decoder. -/
structure HEnv where
  protohost : String
  parentUrl : String
  parentParams : Option ParamMap
  savedBaseUrl : Option String
  savedParams : Option ParamMap
  savedNext : Nat
  mergeOpt : Bool
  reg : ParamReg
  dec : String → Option String

/-- The mutable state threaded through one `Router.handle` scan. -/
structure RState where
  ctx : CtxM
  removed : String
  slashAdded : Bool
  opts : List String
  memo : PMemo

/-- Outcome of `Router.handle`: a handler absorbed the request, the original
continuation was called (by `done`), or an exception propagated. -/
inductive ROut where
  | absorbed (ctx : CtxM)
  | toNext (ctx : CtxM)
  | threw
deriving DecidableEq

/-- `done()` of `Router.handle`: for an `OPTIONS` request with accumulated
verbs, write the automatic response; then restore the saved `baseUrl`,
`params`, `next` and call the original continuation. -/
def doneF (env : HEnv) (st : RState) : ROut :=
  let ctx := if st.ctx.method = "OPTIONS" ∧ st.opts ≠ []
             then setOptionsResponse st.ctx st.opts else st.ctx
  .toNext { ctx with baseUrl := env.savedBaseUrl, params := env.savedParams,
                     nextv := env.savedNext }

/-- The restoration prologue of `router_next`: remove an added slash and
un-trim a removed prefix. -/
def undoState (env : HEnv) (st : RState) : RState :=
  let st1 := if st.slashAdded
             then { st with ctx := { st.ctx with url := st.ctx.url.drop 1 },
                            slashAdded := false }
             else st
  if st1.removed ≠ "" then
    { st1 with
      ctx := { st1.ctx with
               baseUrl := some env.parentUrl,
               url := env.protohost ++ st1.removed ++
                      (st1.ctx.url.drop env.protohost.length) },
      removed := "" }
  else st1

/-- `trim_prefix(layer, layerPath, path)` of `Router.handle`, up to the
handler invocation: `none` rejects the match (the character following the
matched prefix in the full path is present and neither `/` nor `.`);
otherwise the trimmed context together with the new `removed`/`slashAdded`
values. -/
def trimPrefixCore (protohost parentUrl layerPath path : String)
    (ctx : CtxM) : Option (CtxM × String × Bool) :=
  if layerPath.length ≠ 0 then
    let c := path.toList.get? layerPath.length
    match c with
    | some ch =>
      if ch ≠ '/' ∧ ch ≠ '.' then none
      else some (trimApply protohost parentUrl layerPath ctx)
    | none => some (trimApply protohost parentUrl layerPath ctx)
  else some (ctx, "", false)
where
  trimApply (protohost parentUrl layerPath : String) (ctx : CtxM) :
      CtxM × String × Bool :=
    let removed := layerPath
    let url2 := protohost ++ (ctx.url.drop (protohost.length + removed.length))
    let pair := if protohost = "" ∧ url2.toList.head? ≠ some '/'
                then ("/" ++ url2, true) else (url2, false)
    let baseUrl := parentUrl ++ (if removed.toList.getLast? = some '/'
                                 then removed.dropRight 1 else removed)
    ({ ctx with url := pair.1, baseUrl := some baseUrl }, removed, pair.2)

mutual

/-- `router_next(signal)` of `Router.handle`: undo slash/prefix mutations;
with the stack exhausted or a `"router"` signal, `done`; with no derivable
pathname, `done`; otherwise scan forward for the next matching layer. -/
def router_next (env : HEnv) (st : RState) (sig : Option String)
    (rest : List RLayer) : ROut :=
  let st2 := undoState env st
  if rest.length = 0 ∨ sig = some "router" then doneF env st2
  else
    match getPathname st2.ctx.url with
    | none => doneF env st2
    | some path => scanStack env st2 path rest
termination_by 3 * rest.length + 1

/-- The `while (match !== true && idx < stack.length)` scan of
`Router.handle`: skip non-matching layers; a layer owning a Route that does
not handle the verb is treated as non-matching (accumulating its verbs for
`OPTIONS`), except for `HEAD`. -/
def scanStack (env : HEnv) (st : RState) (path : String)
    (ls : List RLayer) : ROut :=
  match ls with
  | [] => doneF env st
  | l :: rest =>
    match Layer.matchM env.dec l.layer (some path) st.ctx.query with
    | .threw _ => .threw
    | .ret b scr _ =>
      if ¬ b then scanStack env st path rest
      else
        match l.body with
        | .rte r =>
          let has := r.handlesMethod st.ctx.method
          let st2 := if ¬ has ∧ st.ctx.method = "OPTIONS"
                     then { st with opts := appendMethods st.opts r.optionsF }
                     else st
          if ¬ has ∧ st.ctx.method ≠ "HEAD" then scanStack env st2 path rest
          else dispatchFound env st2 path (scr.params.getD [])
                 (scr.path.getD "") l.layer.keys l.body rest
        | .mid _ _ =>
          dispatchFound env st path (scr.params.getD []) (scr.path.getD "")
            l.layer.keys l.body rest
termination_by 3 * ls.length

/-- The post-match part of `router_next`: store `ctx.route`, capture the
one-time layer values into `ctx.params` (merged when `mergeParams` is on),
run `process_params`, then dispatch the Route or trim the prefix and run the
middleware; every continuation resumes the scan after the matched layer. -/
def dispatchFound (env : HEnv) (st : RState) (path : String)
    (lparams : ParamMap) (lpath : String) (keys : List PKey)
    (body : RLayerBody) (rest : List RLayer) : ROut :=
  let ctx := st.ctx
  let ctx := match body with
             | .rte r => { ctx with route := some r.path }
             | .mid _ _ => ctx
  let ctx := { ctx with
               params := some (if env.mergeOpt
                               then mergeParamsJS lparams env.parentParams
                               else lparams) }
  match process_params env.reg keys st.memo ctx with
  | .absorbed c _ _ => .absorbed c
  | .next c memo2 psig _ =>
    let st2 := { st with ctx := c, memo := memo2 }
    if sigTruthy psig then router_next env st2 psig rest
    else
      match body with
      | .rte r =>
        match r.dispatchM c with
        | .absorbed c2 => .absorbed c2
        | .called c2 s => router_next env { st2 with ctx := c2 } s rest
      | .mid len4 beh =>
        match trimPrefixCore env.protohost env.parentUrl lpath path c with
        | none => router_next env st2 none rest
        | some (c2, rem, sl) =>
          let st3 := { st2 with ctx := c2, removed := rem, slashAdded := sl }
          if len4 then router_next env st3 none rest
          else
            match beh with
            | .absorb => .absorbed c2
            | .act f s => router_next env { st3 with ctx := f c2 } s rest
termination_by 3 * rest.length + 2

end

/-- A Router: its layer stack, options and parameter registry (the fields
used by `handle`). -/
structure RouterM where
  stack : List RLayer
  mergeOpt : Bool
  reg : ParamReg

/-- `Router.handle(ctx, next)` of index.js: compute the FQDN prefix, save
`baseUrl`/`params`/`next`, install the router's own continuation (modelled by
bumping `nextv`), default `baseUrl` and `originalUrl`, then start the
scan. -/
def RouterM.handleM (dec : String → Option String) (r : RouterM)
    (ctx : CtxM) : ROut :=
  let protohost := (getProtohost ctx.url).getD ""
  let parentUrl := ctx.baseUrl.getD ""
  let env : HEnv :=
    { protohost := protohost, parentUrl := parentUrl,
      parentParams := ctx.params, savedBaseUrl := ctx.baseUrl,
      savedParams := ctx.params, savedNext := ctx.nextv,
      mergeOpt := r.mergeOpt, reg := r.reg, dec := dec }
  let ctx2 := { ctx with
                nextv := ctx.nextv + 1,
                baseUrl := some parentUrl,
                originalUrl := if sigTruthy ctx.originalUrl
                               then ctx.originalUrl else some ctx.url }
  router_next env
    { ctx := ctx2, removed := "", slashAdded := false, opts := [], memo := [] }
    none r.stack

/-- A JS value as passed to the registration functions. -/
inductive JSVal where
  | vstr (s : String)
  | vregexp (src : String)
  | varr (elems : List JSVal)
  | vfunc (name : String)
  | vother (rendered : String) (truthy : Bool)

/-- `typeof v === 'function'`. -/
def isFunc : JSVal → Bool
  | .vfunc _ => true
  | _ => false

/-- `typeof v === 'string' || v instanceof RegExp`. -/
def isPathLike : JSVal → Bool
  | .vstr _ => true
  | .vregexp _ => true
  | _ => false

/-- JS truthiness of a registration argument. -/
def jsTruthy : JSVal → Bool
  | .vstr s => s ≠ ""
  | .vregexp _ => true
  | .varr _ => true
  | .vfunc _ => true
  | .vother _ t => t

/-- Model of `util.inspect` as used in the registration error messages. -/
def jsInspect : JSVal → String
  | .vstr s => "'" ++ s ++ "'"
  | .vregexp src => "/" ++ src ++ "/"
  | .varr _ => "[Array]"
  | .vfunc n => "[Function: " ++ n ++ "]"
  | .vother r _ => r

/-- `array-flatten` of the middleware arguments (deep). -/
def jsFlatten : List JSVal → List JSVal
  | [] => []
  | .varr es :: rest => jsFlatten es ++ jsFlatten rest
  | .vstr s :: rest => .vstr s :: jsFlatten rest
  | .vregexp s :: rest => .vregexp s :: jsFlatten rest
  | .vfunc n :: rest => .vfunc n :: jsFlatten rest
  | .vother r t :: rest => .vother r t :: jsFlatten rest

/-- The argument decomposition of `Router.use(...)`: the optional leading
path (a string/RegExp or an array of those; default `'/'`), then after
flattening the optional leading truthy non-function query object, then the
middleware list. -/
def useExtract (args : List JSVal) : JSVal × Option JSVal × List JSVal :=
  let pr : JSVal × List JSVal :=
    match args with
    | [] => (.vstr "/", [])
    | a :: rest =>
      let firstArr := match a with | .varr es => es | v => [v]
      if firstArr.all isPathLike then (a, rest) else (.vstr "/", a :: rest)
  let mws := jsFlatten pr.2
  match mws with
  | m :: rest2 =>
    if jsTruthy m ∧ ¬ isFunc m then (pr.1, some m, rest2)
    else (pr.1, none, m :: rest2)
  | [] => (pr.1, none, [])

/-- The per-middleware registration loop of `Router.use`: the first
non-function argument throws the descriptive `TypeError`. -/
def useCheck : List JSVal → Except String (List JSVal)
  | [] => .ok []
  | f :: rest =>
    if isFunc f then (useCheck rest).map (fun l => f :: l)
    else .error ("Router.use() requires a middleware function but got a "
                 ++ jsInspect f)

/-- `Router.use(...middlewares)` up to layer creation: empty middleware list
throws; otherwise each middleware must be a function. -/
def Router.useModel (args : List JSVal) : Except String (List JSVal) :=
  let e := useExtract args
  if e.2.2.isEmpty then .error "Router.use() requires a middleware function"
  else useCheck e.2.2

/-- The per-handler loop of `Route.method`: the first non-function argument
throws the descriptive `TypeError` labelled with the method name (`all` for
`_all`). -/
def methodCheck (label : String) : List JSVal → Except String (List JSVal)
  | [] => .ok []
  | f :: rest =>
    if isFunc f then (methodCheck label rest).map (fun l => f :: l)
    else .error ("Route." ++ label ++ "() requires callback functions but got a "
                 ++ jsInspect f)

/-- The query shift of `Route.method`: a leading truthy non-function
argument is consumed as the query, the remainder are the handlers. -/
def methodExtract (args : List JSVal) : List JSVal :=
  match args with
  | m :: rest => if jsTruthy m ∧ ¬ isFunc m then rest else m :: rest
  | [] => []

/-- `Route.method(methodName, ...middlewares)` of Route.js: shift a leading
truthy non-function query argument, then validate each handler (no
flattening here). -/
def Route.methodModel (methodName : String) (args : List JSVal) :
    Except String (List JSVal) :=
  methodCheck (if methodName = "_all" then "all" else methodName)
    (methodExtract args)

/-- Executable lexicographic comparison on code points, used to state
sortedness of verb lists. -/
def charsLe : List Char → List Char → Bool
  | [], _ => true
  | _ :: _, [] => false
  | a :: as, b :: bs => if a = b then charsLe as bs else decide (a.toNat < b.toNat)

/-- `s ≤ t` lexicographically. -/
def strLeB (s t : String) : Bool :=
  charsLe s.toList t.toList

/-- A list of strings is sorted (adjacent pairs in `strLeB` order). -/
def sortedStr : List String → Bool
  | [] => true
  | [_] => true
  | a :: b :: rest => strLeB a b && sortedStr (b :: rest)

/-- The invocation log of a `process_params` result. -/
def PPRes.log : PPRes → List PEv
  | .absorbed _ _ log => log
  | .next _ _ _ log => log

/-- An identity `decodeURIComponent` used by concrete witnesses. -/
def dec0 : String → Option String := fun s => some s

/-- A base request context for concrete witnesses. -/
def ctx0 : CtxM :=
  { method := "GET", url := "/foobar", query := [], baseUrl := none,
    originalUrl := none, params := none, nextv := 0, route := none,
    headers := [], body := none }

/-- Fast-slash layer with a string query condition (for the `Layer.match`
counterexample: query fails, path fast-matches). -/
def lQueryFail : LayerM :=
  { exec := fun _ => none, fast_slash := true, fast_star := false,
    keys := [], query := some [("a", .qstr "x")] }

/-- Layer whose only query condition is a function-valued predicate. -/
def lFuncQuery : LayerM :=
  { exec := fun _ => none, fast_slash := false, fast_star := false,
    keys := [], query := some [("k", .qfunc (fun v => v = some "1"))] }

/-- A parameter callback that flips `ctx.params.x` between `"a"` and
`"b"` and continues with no signal. -/
def cbFlip : PCb :=
  .act (fun c => cxPset c (.str "x")
        (if cxPread c (.str "x") = some "a" then some "b" else some "a")) none

def regFlip : ParamReg := [("x", [cbFlip])]

def ctxFlip : CtxM := { ctx0 with params := some [(.str "x", some "a")] }

def keysFlip : List PKey := [.str "x", .str "x", .str "x"]

/-- A Route layer with no verb tag, no query condition and a pass-through
handler. -/
def rlPass : RouteLayerM :=
  { method := none, query := none, len4 := false, beh := .act id none }

/-- Layer matching `/foo` as a prefix of `/foobar` (models the compiled
matcher of a non-ending pattern). -/
def lFoo : LayerM :=
  { exec := fun p => if p = "/foobar" then some ("/foo", []) else none,
    fast_slash := false, fast_star := false, keys := [], query := none }

def rlayFoo : RLayer := { layer := lFoo, body := .mid false (.act id none) }

def routerFoo : RouterM := { stack := [rlayFoo], mergeOpt := false, reg := [] }

/-- A handle environment for concrete witnesses. -/
def env0 : HEnv :=
  { protohost := "", parentUrl := "", parentParams := none,
    savedBaseUrl := none, savedParams := none, savedNext := 0,
    mergeOpt := false, reg := [], dec := dec0 }

/-- Scan state of an `OPTIONS` request with accumulated verbs. -/
def stOpts : RState :=
  { ctx := { ctx0 with method := "OPTIONS" }, removed := "",
    slashAdded := false, opts := ["GET", "POST"], memo := [] }

/-- Child params with positional captures 0..1 and a named capture. -/
def c5child : ParamMap :=
  [(.num 0, some "c0"), (.num 1, some "c1"), (.str "n", some "cn")]

/-- Parent params with positional capture 0 and named captures. -/
def c5parent : ParamMap :=
  [(.num 0, some "p0"), (.str "n", some "pn"), (.str "q", some "pq")]

/-- Route declaring `post` then `get` (in that registration order). -/
def rPostGet : RouteM := { path := "/x", methodsList := ["post", "get"], stack := [] }

/-- An empty Router used by the frame-restoration witness. -/
def routerEmpty : RouterM := { stack := [], mergeOpt := false, reg := [] }

/-- Memo fixture used by the parameter-memo witness: `x` last resolved for
value `"a"`, with the callbacks having rewritten it to `"b"`. -/
def memoW : PMemo := [("x", ⟨none, some "a", some "b"⟩)]

/-- Registration arguments with a path, one function and a non-callable
third argument. -/
def argsBad : List JSVal := [.vstr "/p", .vfunc "f", .vother "null" false]

/-- Registration arguments that are all callable. -/
def argsGood : List JSVal := [.vfunc "g"]

/-- Handler arguments to a Route verb method with a non-callable second
argument. -/
def argsBadRoute : List JSVal := [.vfunc "h", .vstr "oops"]

/-! ## Theorems -/

theorem mlookup_nil (n2 : String) : mlookup [] n2 = none := rfl

theorem mlookup_cons (p : String × PMemoEntry) (rest : PMemo) (n2 : String) :
    mlookup (p :: rest) n2 = if p.1 = n2 then some p.2 else mlookup rest n2 := by
  by_cases h : p.1 = n2 <;> simp [mlookup, List.find?, h]

theorem mlookup_mset (m : PMemo) (n : String) (e : PMemoEntry) (n2 : String) :
    mlookup (mset m n e) n2 = if n2 = n then some e else mlookup m n2 := by
  induction m with
  | nil =>
    rw [show mset [] n e = [(n, e)] from rfl, mlookup_cons]
    by_cases h : n2 = n
    · simp [h]
    · have h1 : ¬ (n = n2) := fun hc => h hc.symm
      simp [h, h1, mlookup_nil]
  | cons p rest ih =>
    by_cases hp : p.1 = n
    · rw [show mset (p :: rest) n e = (n, e) :: rest by simp [mset, hp]]
      rw [mlookup_cons, mlookup_cons]
      by_cases h : n2 = n
      · simp [h]
      · have h1 : ¬ (n = n2) := fun hc => h hc.symm
        have h2 : ¬ (p.1 = n2) := by rw [hp]; exact h1
        simp [h, h1, h2]
    · rw [show mset (p :: rest) n e = p :: mset rest n e by simp [mset, hp]]
      rw [mlookup_cons, mlookup_cons, ih]
      by_cases h2 : p.1 = n2
      · have hne : ¬ n2 = n := fun hc => hp (h2.trans hc)
        simp [h2, hne]
      · simp [h2]

/-- C1: a Route-layer continuation invoked with no signal advances the walk to
the next layer; `"route"` abandons the remaining layers and calls the Route's
own continuation with no signal; `"router"` abandons them and propagates
`"router"`; and the enclosing Router's `router_next` on a `"router"` signal
skips all remaining layers, behaving exactly like an exhausted scan
(restore-and-continue via `done`). -/
theorem c1_route_signal_semantics :
    (∀ (m : String) (ctx : CtxM) (ls : List RouteLayerM),
       routeNextM m ctx (some "route") ls = .called ctx none)
    ∧ (∀ (m : String) (ctx : CtxM) (ls : List RouteLayerM),
       routeNextM m ctx (some "router") ls = .called ctx (some "router"))
    ∧ (∀ (m : String) (ctx : CtxM) (l : RouteLayerM) (rest : List RouteLayerM)
         (f : CtxM → CtxM),
       l.method = none → l.query = none → l.len4 = false → l.beh = .act f none →
       routeNextM m ctx none (l :: rest) = routeNextM m (f ctx) none rest)
    ∧ (∀ (env : HEnv) (st : RState) (rest : List RLayer),
       router_next env st (some "router") rest = doneF env (undoState env st))
    ∧ (∀ (env : HEnv) (st : RState) (sig : Option String),
       router_next env st sig [] = doneF env (undoState env st)) := by
  refine ⟨?_, ?_, ?_, ?_, ?_⟩
  · intro m ctx ls
    cases ls <;> simp [routeNextM]
  · intro m ctx ls
    cases ls <;> simp [routeNextM]
  · intro m ctx l rest f hm hq h4 hb
    simp [routeNextM, layerMethodSkip, hm, hq, h4, hb, queryMatchEv]
  · intro env st rest
    rw [router_next]
    simp
  · intro env st sig
    rw [router_next]
    simp

theorem c1_route_signal_semantics_witness :
    routeNextM "get" ctx0 none (rlPass :: []) = routeNextM "get" (id ctx0) none [] :=
  c1_route_signal_semantics.2.2.1 "get" ctx0 rlPass [] id rfl rfl rfl rfl

/-- C2 counterexample: for an `OPTIONS` request with accumulated verbs,
`done` writes the Allow header and body but still restores the saved fields
and calls the original continuation (`.toNext`), contradicting the claim
that the continuation is skipped. -/
theorem c2_options_counterexample :
    doneF env0 stOpts
      = .toNext { stOpts.ctx with headers := [("Allow", "GET,POST")],
                                  body := some "GET,POST" } := by
  decide

/-- C2 amended: when the scan is exhausted, `done` always restores the saved
`baseUrl`/`params`/`next` and always calls the original continuation; when
additionally the verb is `OPTIONS` and verbs were accumulated, it first
writes the comma-joined verbs as the Allow header and the response body
(otherwise headers and body are untouched). -/
theorem c2_done_amended (env : HEnv) (st : RState) :
    ∃ c, doneF env st = .toNext c
      ∧ c.baseUrl = env.savedBaseUrl
      ∧ c.params = env.savedParams
      ∧ c.nextv = env.savedNext
      ∧ (st.ctx.method = "OPTIONS" ∧ st.opts ≠ [] →
          c.headers = hset st.ctx.headers "Allow" (String.intercalate "," st.opts)
          ∧ c.body = some (String.intercalate "," st.opts))
      ∧ (¬ (st.ctx.method = "OPTIONS" ∧ st.opts ≠ []) →
          c.headers = st.ctx.headers ∧ c.body = st.ctx.body) := by
  by_cases h : st.ctx.method = "OPTIONS" ∧ st.opts ≠ []
  · refine ⟨{ (setOptionsResponse st.ctx st.opts) with baseUrl := env.savedBaseUrl, params := env.savedParams, nextv := env.savedNext },
            by simp [doneF, h], rfl, rfl, rfl, ?_, ?_⟩
    · intro _; exact ⟨by simp [setOptionsResponse], by simp [setOptionsResponse]⟩
    · intro hc; exact absurd h hc
  · refine ⟨{ st.ctx with baseUrl := env.savedBaseUrl, params := env.savedParams, nextv := env.savedNext },
            by simp [doneF, h], rfl, rfl, rfl, ?_, ?_⟩
    · intro hc; exact absurd hc h
    · intro _; exact ⟨rfl, rfl⟩

theorem c2_done_amended_witness :
    ∃ c, doneF env0 stOpts = .toNext c
      ∧ c.body = some (String.intercalate "," stOpts.opts) := by
  obtain ⟨c, h1, _, _, _, h5, _⟩ := c2_done_amended env0 stOpts
  exact ⟨c, h1, (h5 ⟨rfl, by decide⟩).2⟩

/-- C3 counterexample: with a single registered callback for `x` that flips
the captured value between `"a"` and `"b"`, processing three captures of `x`
in one `process_params` run (one top-level dispatch, one shared memo)
invokes the callback twice for the same captured value `"a"` — the memo
keeps only the most recent value, so "at most once per unique captured
value" fails, as does replay against "a previous invocation" that is not
the most recent one. -/
theorem c3_unique_value_counterexample :
    (process_params regFlip keysFlip [] ctxFlip).log
      = [("x", some "a"), ("x", some "b"), ("x", some "a")]
    ∧ ((process_params regFlip keysFlip [] ctxFlip).log).count ("x", some "a") = 2 := by
  decide

/-- C3 amended: (1) when the memo entry for a capture name passes the replay
guard (the memoized value equals the current capture, or the memoized signal
is truthy and not `"route"`), the stored value is restored and the stored
signal replayed without invoking any callback (no log event); (2) callbacks
run in registration order, each invocation is logged with the original
capture value; (3) a truthy raised signal stops the chain immediately,
recording the signal; (4)-(5) the memoized `match` value survives the
callback-time memo mutations, so a repeat of the most recent value never
re-invokes callbacks — at most once per unique value since the last
different value for that name. -/
theorem c3_param_memo_amended :
    (∀ (reg : ParamReg) (ctx : CtxM) (memo : PMemo) (log : List PEv)
       (k : PKey) (rest : List PKey) (cbs : List PCb) (v : String) (e : PMemoEntry),
       lookupReg reg (pkeyStr k) = some cbs →
       cxPread ctx k = some v →
       mlookup memo (pkeyStr k) = some e →
       replayGuard e v = true →
       paramStep reg ctx memo log (k :: rest)
         = (if sigTruthy e.signal
            then PPRes.next (cxPset ctx k e.value) memo e.signal log
            else paramStep reg (cxPset ctx k e.value) memo log rest))
    ∧ (∀ (name : String) (k : PKey) (pv : Option String) (ctx : CtxM)
         (memo : PMemo) (log : List PEv) (f : CtxM → CtxM) (s : Option String)
         (rest : List PCb),
       paramCallbackStep name k pv ctx memo log none (PCb.act f s :: rest)
         = paramCallbackStep name k pv (f ctx)
             (msetValue memo name (cxPread ctx k)) (log ++ [(name, pv)]) s rest)
    ∧ (∀ (name : String) (k : PKey) (pv : Option String) (ctx : CtxM)
         (memo : PMemo) (log : List PEv) (s : Option String) (cbs : List PCb),
       sigTruthy s = true →
       paramCallbackStep name k pv ctx memo log s cbs
         = .raise ctx (msetSignal (msetValue memo name (cxPread ctx k)) name s) log s)
    ∧ (∀ (memo : PMemo) (name : String) (w : Option String) (n2 : String),
       (mlookup (msetValue memo name w) n2).map (·.matchVal)
         = (mlookup memo n2).map (·.matchVal))
    ∧ (∀ (memo : PMemo) (name : String) (s : Option String) (n2 : String),
       (mlookup (msetSignal memo name s) n2).map (·.matchVal)
         = (mlookup memo n2).map (·.matchVal)) := by
  refine ⟨?_, ?_, ?_, ?_, ?_⟩
  · intro reg ctx memo log k rest cbs v e hreg hval hmemo hguard
    simp only [paramStep, hreg, hval, hmemo, hguard, if_true]
  · intro name k pv ctx memo log f s rest
    simp [paramCallbackStep, sigTruthy]
  · intro name k pv ctx memo log s cbs hs
    cases cbs <;> simp [paramCallbackStep, hs]
  · intro memo name w n2
    unfold msetValue
    cases hm : mlookup memo name with
    | none => rfl
    | some e =>
      rw [mlookup_mset]
      by_cases h : n2 = name
      · subst h; simp [hm]
      · simp [h]
  · intro memo name s n2
    unfold msetSignal
    cases hm : mlookup memo name with
    | none => rfl
    | some e =>
      rw [mlookup_mset]
      by_cases h : n2 = name
      · subst h; simp [hm]
      · simp [h]

theorem c3_param_memo_amended_witness :
    paramStep regFlip ctxFlip memoW [] [PKey.str "x"]
      = paramStep regFlip (cxPset ctxFlip (.str "x") (some "b")) memoW [] [] := by
  have h := c3_param_memo_amended.1 regFlip ctxFlip memoW [] (.str "x") []
    [cbFlip] "a" ⟨none, some "a", some "b"⟩ rfl rfl rfl (by decide)
  simpa [sigTruthy] using h

/-- C4 counterexample: a layer whose query condition fails but whose path
fast-matches returns `false` from `match` while leaving `.params = {}` and
`.path = ""` populated — the scratch is not cleared on this `false`
return. -/
theorem c4_clear_counterexample :
    Layer.matchM dec0 lQueryFail (some "/foo") [("a", "y")]
      = .ret false ⟨some [], some ""⟩ []
    ∧ (some ([] : ParamMap)) ≠ none := by
  exact ⟨by decide, by simp⟩

/-- C4 amended: `match` returns a boolean; on a `true` return `.params` and
`.path` are populated; the scratch is cleared (both `undefined`) exactly when
the path match fails (`null` path or a failed matcher), and in that case the
result is `false`; but when the path matches and only the query condition
fails, `match` returns `false` with `.params`/`.path` still populated.  On
the ordinary matcher path the populated values are the decoded captures and
the matched prefix `match[0]`. -/
theorem c4_match_scratch_amended (dec : String → Option String) (l : LayerM)
    (path : Option String) (q : QueryMap) :
    (∀ b scr evs, Layer.matchM dec l path q = .ret b scr evs →
       (b = true → scr.params.isSome ∧ scr.path.isSome)
       ∧ (scr.params = none ↔ scr.path = none)
       ∧ (b = false → scr.params.isSome → (queryMatchEv l.query q).1 = false))
    ∧ (path = none →
       Layer.matchM dec l path q = .ret false ⟨none, none⟩ (queryMatchEv l.query q).2)
    ∧ (∀ p, path = some p → l.fast_slash = false → l.fast_star = false →
       l.exec p = none →
       Layer.matchM dec l path q = .ret false ⟨none, none⟩ (queryMatchEv l.query q).2)
    ∧ (∀ p m0 caps ps, path = some p → l.fast_slash = false →
       l.fast_star = false → l.exec p = some (m0, caps) →
       buildParams dec l.keys caps [] = some ps →
       Layer.matchM dec l path q
         = .ret (queryMatchEv l.query q).1 ⟨some ps, some m0⟩ (queryMatchEv l.query q).2) := by
  refine ⟨?_, ?_, ?_, ?_⟩
  · intro b scr evs hm
    cases path with
    | none =>
      simp only [Layer.matchM] at hm
      injection hm with hb hscr hevs
      subst hb; subst hscr
      exact ⟨fun hc => by simp at hc, by simp, fun _ hps => by simp at hps⟩
    | some p =>
      simp only [Layer.matchM] at hm
      by_cases h1 : l.fast_slash
      · rw [if_pos h1] at hm
        injection hm with hb hscr hevs
        subst hb; subst hscr
        refine ⟨fun _ => ⟨by simp, by simp⟩, by simp, fun hb2 _ => ?_⟩
        rw [← hb2]
      · rw [if_neg h1] at hm
        by_cases h2 : l.fast_star
        · rw [if_pos h2] at hm
          cases hd : decode_param dec (some p) with
          | none => rw [hd] at hm; cases hm
          | some v =>
            rw [hd] at hm
            injection hm with hb hscr hevs
            subst hb; subst hscr
            refine ⟨fun _ => ⟨by simp, by simp⟩, by simp, fun hb2 _ => ?_⟩
            rw [← hb2]
        · rw [if_neg h2] at hm
          cases he : l.exec p with
          | none =>
            rw [he] at hm
            injection hm with hb hscr hevs
            subst hb; subst hscr
            exact ⟨fun hc => by simp at hc, by simp, fun _ hps => by simp at hps⟩
          | some pr =>
            rw [he] at hm
            cases hbp : buildParams dec l.keys pr.2 [] with
            | none => simp [hbp] at hm
            | some ps =>
              simp only [hbp] at hm
              injection hm with hb hscr hevs
              subst hb; subst hscr
              refine ⟨fun _ => ⟨by simp, by simp⟩, by simp, fun hb2 _ => ?_⟩
              rw [← hb2]
  · intro hp; subst hp; rfl
  · intro p hp h1 h2 he
    subst hp
    simp [Layer.matchM, h1, h2, he]
  · intro p m0 caps ps hp h1 h2 he hbp
    subst hp
    simp [Layer.matchM, h1, h2, he, hbp]

theorem c4_match_scratch_amended_witness :
    Layer.matchM dec0 lQueryFail (some "/foo") [("a", "y")]
      = .ret false ⟨some [], some ""⟩ (queryMatchEv lQueryFail.query [("a", "y")]).2
    ∧ (queryMatchEv lQueryFail.query [("a", "y")]).1 = false := by
  have h := (c4_match_scratch_amended dec0 lQueryFail (some "/foo") [("a", "y")]).1
    false ⟨some [], some ""⟩ [] (by decide)
  exact ⟨by decide, h.2.2 rfl (by simp)⟩

/-- C10: `match` evaluates the query condition first and independently of the
path: (1) the query-predicate invocation events of any `match` call are
exactly those of `queryMatch` on the actual query, whatever the path does
(including decode throws); (2) the returned boolean is the conjunction of
the query outcome and the path-match success; (3) in particular a layer
whose condition is a single function-valued predicate has that predicate
invoked with the actual query value even when the path does not match. -/
theorem c10_query_first (dec : String → Option String) (l : LayerM)
    (path : Option String) (q : QueryMap) :
    (Layer.matchM dec l path q).evs = (queryMatchEv l.query q).2
    ∧ (∀ b scr evs, Layer.matchM dec l path q = .ret b scr evs →
        b = ((queryMatchEv l.query q).1 && scr.path.isSome))
    ∧ (∀ k f, l.query = some [(k, .qfunc f)] →
        (k, qget q k) ∈ (Layer.matchM dec l path q).evs) := by
  have hevs : (Layer.matchM dec l path q).evs = (queryMatchEv l.query q).2 := by
    cases path with
    | none => rfl
    | some p =>
      simp only [Layer.matchM]
      by_cases h1 : l.fast_slash
      · simp [h1, MatchRes.evs]
      · by_cases h2 : l.fast_star
        · simp only [h1, if_false, h2, if_true]
          cases decode_param dec (some p) <;> simp [MatchRes.evs]
        · simp only [h1, if_false, h2]
          cases l.exec p with
          | none => simp [MatchRes.evs]
          | some pr =>
            cases hbp : buildParams dec l.keys pr.2 [] <;>
              simp [MatchRes.evs, hbp]
  refine ⟨hevs, ?_, ?_⟩
  · intro b scr evs hm
    cases path with
    | none =>
      simp only [Layer.matchM] at hm
      injection hm with hb hscr hevs2
      subst hb; subst hscr; simp
    | some p =>
      simp only [Layer.matchM] at hm
      by_cases h1 : l.fast_slash
      · rw [if_pos h1] at hm
        injection hm with hb hscr hevs2
        subst hb; subst hscr; simp
      · rw [if_neg h1] at hm
        by_cases h2 : l.fast_star
        · rw [if_pos h2] at hm
          cases hd : decode_param dec (some p) with
          | none => rw [hd] at hm; cases hm
          | some v =>
            rw [hd] at hm
            injection hm with hb hscr hevs2
            subst hb; subst hscr; simp
        · rw [if_neg h2] at hm
          cases he : l.exec p with
          | none =>
            rw [he] at hm
            injection hm with hb hscr hevs2
            subst hb; subst hscr; simp
          | some pr =>
            rw [he] at hm
            cases hbp : buildParams dec l.keys pr.2 [] with
            | none => simp [hbp] at hm
            | some ps =>
              simp only [hbp] at hm
              injection hm with hb hscr hevs2
              subst hb; subst hscr; simp
  · intro k f hq
    rw [hevs, hq]
    simp only [queryMatchEv, queryMatchEv.go, queryCheck]
    cases hf : f (qget q k) <;> simp

theorem c10_query_first_witness :
    ("k", (none : Option String)) ∈ (Layer.matchM dec0 lFuncQuery (some "/nope") []).evs :=
  (c10_query_first dec0 lFuncQuery (some "/nope") []).2.2 "k"
    (fun v => v = some "1") rfl

theorem char_toLower_toUpper_cancel (c : Char) (h : c.toLower = c) :
    (c.toUpper).toLower = c := by
  by_cases hl : 97 ≤ c.toNat ∧ c.toNat ≤ 122
  · have hup : c.toUpper = Char.ofNat (c.toNat - 32) := by
      rw [Char.toUpper, if_pos hl]
    have hv : (Char.ofNat (c.toNat - 32)).toNat = c.toNat - 32 := by
      rw [Char.ofNat, dif_pos]
      · rfl
      · exact Or.inl (by omega)
    rw [hup, Char.toLower, if_pos (by rw [hv]; omega)]
    rw [hv]
    have h32 : c.toNat - 32 + 32 = c.toNat := by omega
    rw [h32, Char.ofNat_toNat]
  · rw [Char.toUpper, if_neg hl, h]

theorem map_toLower_fixed (l : List Char) (h : l.map Char.toLower = l) :
    ∀ c ∈ l, c.toLower = c := by
  induction l with
  | nil => intro c hc; cases hc
  | cons a t ih =>
    intro c hc
    simp only [List.map_cons, List.cons.injEq] at h
    rcases List.mem_cons.mp hc with hca | hct
    · rw [hca]; exact h.1
    · exact ih h.2 c hct

theorem strLower_strUpper_cancel (s : String) (h : strLower s = s) :
    strLower (strUpper s) = s := by
  have hdata : s.toList.map Char.toLower = s.toList := by
    have := congrArg String.toList h
    simpa [strLower] using this
  have hpt : ∀ c ∈ s.toList, c.toLower = c :=
    map_toLower_fixed s.toList hdata
  have : (s.toList.map Char.toUpper).map Char.toLower = s.toList := by
    rw [List.map_map]
    calc s.toList.map (Char.toLower ∘ Char.toUpper)
        = s.toList.map (fun c => c) := by
          apply List.map_congr_left
          intro c hc
          exact char_toLower_toUpper_cancel c (hpt c hc)
      _ = s.toList := by simp
  have hlist : (strUpper s).toList = s.toList.map Char.toUpper := by
    simp [strUpper]
  calc strLower (strUpper s) = String.mk (((strUpper s).toList).map Char.toLower) := rfl
    _ = String.mk ((s.toList.map Char.toUpper).map Char.toLower) := by rw [hlist]
    _ = String.mk s.toList := by rw [this]
    _ = s := by cases s; rfl

/-- C7 counterexample: a Route whose verbs were declared in the order
`post`, `get` yields `_options() = ["POST", "GET", "HEAD"]`, which is not
sorted — `Object.keys` preserves insertion order and the code never
sorts. -/
theorem c7_sorted_counterexample :
    RouteM.optionsF rPostGet = ["POST", "GET", "HEAD"]
    ∧ sortedStr (RouteM.optionsF rPostGet) = false := by
  exact ⟨by decide, by decide⟩

/-- C7 amended: `_options()` returns the Route's declared verbs upper-cased
in registration (insertion) order — not sorted — with a synthetic `HEAD`
appended at the end whenever `get` is declared and `head` is not; the result
is de-duplicated provided the declared keys are distinct lower-case names
(as produced by the verb registration methods). -/
theorem c7_options_amended (r : RouteM) :
    (("get" ∈ r.methodsList ∧ "head" ∉ r.methodsList) →
       RouteM.optionsF r = r.methodsList.map strUpper ++ ["HEAD"])
    ∧ (¬ ("get" ∈ r.methodsList ∧ "head" ∉ r.methodsList) →
       RouteM.optionsF r = r.methodsList.map strUpper)
    ∧ ((∀ s ∈ r.methodsList, strLower s = s) → r.methodsList.Nodup →
       (RouteM.optionsF r).Nodup)
    ∧ ("get" ∈ r.methodsList → "HEAD" ∈ RouteM.optionsF r) := by
  have hup : strUpper "head" = "HEAD" := by decide
  refine ⟨?_, ?_, ?_, ?_⟩
  · intro ⟨h1, h2⟩
    simp only [RouteM.optionsF]
    rw [if_pos ⟨by simpa using h1, by simpa using h2⟩, List.map_append]
    simp [hup]
  · intro h
    simp only [RouteM.optionsF]
    rw [if_neg]
    intro ⟨h1, h2⟩
    exact h ⟨by simpa using h1, by simpa using h2⟩
  · intro hlow hnd
    have hinj : ∀ a ∈ r.methodsList, ∀ b ∈ r.methodsList,
        strUpper a = strUpper b → a = b := by
      intro a ha b hb hab
      calc a = strLower (strUpper a) := (strLower_strUpper_cancel a (hlow a ha)).symm
        _ = strLower (strUpper b) := by rw [hab]
        _ = b := strLower_strUpper_cancel b (hlow b hb)
    have hndmap : (r.methodsList.map strUpper).Nodup := hnd.map_on hinj
    by_cases hc : "get" ∈ r.methodsList ∧ "head" ∉ r.methodsList
    · simp only [RouteM.optionsF]
      rw [if_pos ⟨by simpa using hc.1, by simpa using hc.2⟩, List.map_append]
      rw [List.nodup_append]
      refine ⟨hndmap, by simp, ?_⟩
      intro x hx hx2
      simp at hx2
      subst hx2
      obtain ⟨s, hs, hsu⟩ := List.mem_map.mp hx
      have : s = "head" := by
        calc s = strLower (strUpper s) := (strLower_strUpper_cancel s (hlow s hs)).symm
          _ = strLower (strUpper "head") := by rw [hsu]
          _ = "head" := by decide
      exact hc.2 (this ▸ hs)
    · simp only [RouteM.optionsF]
      rw [if_neg]
      · exact hndmap
      · intro ⟨h1, h2⟩
        exact hc ⟨by simpa using h1, by simpa using h2⟩
  · intro hg
    by_cases hh : "head" ∈ r.methodsList
    · simp only [RouteM.optionsF]
      rw [if_neg (fun hk => (by simpa using hk.2 : "head" ∉ r.methodsList) hh)]
      exact List.mem_map.mpr ⟨"head", hh, hup⟩
    · simp only [RouteM.optionsF]
      rw [if_pos ⟨by simpa using hg, by simpa using hh⟩, List.map_append]
      exact List.mem_append.mpr (Or.inr (by simp [hup]))

theorem c7_options_amended_witness :
    RouteM.optionsF rPostGet = rPostGet.methodsList.map strUpper ++ ["HEAD"] :=
  (c7_options_amended rPostGet).1 ⟨by decide, by decide⟩

theorem useCheck_ok (l : List JSVal) (h : ∀ f ∈ l, isFunc f = true) :
    useCheck l = .ok l := by
  induction l with
  | nil => rfl
  | cons a t ih =>
    have ha := h a (List.mem_cons_self a t)
    simp [useCheck, ha, ih (fun f hf => h f (List.mem_cons_of_mem a hf)), Except.map]

theorem useCheck_bad (l : List JSVal) (f : JSVal) (hf : f ∈ l)
    (hnf : isFunc f = false) :
    ∃ g, isFunc g = false ∧ g ∈ l
      ∧ useCheck l
          = .error ("Router.use() requires a middleware function but got a "
                    ++ jsInspect g) := by
  induction l with
  | nil => cases hf
  | cons a t ih =>
    by_cases ha : isFunc a = true
    · rcases List.mem_cons.mp hf with hfa | hft
      · rw [hfa] at hnf; rw [hnf] at ha; cases ha
      · obtain ⟨g, hg1, hg2, hg3⟩ := ih hft
        exact ⟨g, hg1, List.mem_cons_of_mem a hg2, by simp [useCheck, ha, hg3, Except.map]⟩
    · have ha2 : isFunc a = false := by
        cases hi : isFunc a
        · rfl
        · exact absurd hi ha
      exact ⟨a, ha2, List.mem_cons_self a t, by simp [useCheck, ha2]⟩

theorem methodCheck_ok (label : String) (l : List JSVal)
    (h : ∀ f ∈ l, isFunc f = true) : methodCheck label l = .ok l := by
  induction l with
  | nil => rfl
  | cons a t ih =>
    have ha := h a (List.mem_cons_self a t)
    simp [methodCheck, ha, ih (fun f hf => h f (List.mem_cons_of_mem a hf)), Except.map]

theorem methodCheck_bad (label : String) (l : List JSVal) (f : JSVal)
    (hf : f ∈ l) (hnf : isFunc f = false) :
    ∃ g, isFunc g = false ∧ g ∈ l
      ∧ methodCheck label l
          = .error ("Route." ++ label ++ "() requires callback functions but got a "
                    ++ jsInspect g) := by
  induction l with
  | nil => cases hf
  | cons a t ih =>
    by_cases ha : isFunc a = true
    · rcases List.mem_cons.mp hf with hfa | hft
      · rw [hfa] at hnf; rw [hnf] at ha; cases ha
      · obtain ⟨g, hg1, hg2, hg3⟩ := ih hft
        exact ⟨g, hg1, List.mem_cons_of_mem a hg2, by simp [methodCheck, ha, hg3, Except.map]⟩
    · have ha2 : isFunc a = false := by
        cases hi : isFunc a
        · rfl
        · exact absurd hi ha
      exact ⟨a, ha2, List.mem_cons_self a t, by simp [methodCheck, ha2]⟩

/-- C9: a non-callable value in a middleware position of `Router.use` or a
Route verb method makes the registration call itself return the descriptive
`TypeError` naming the rendered offending value (thrown synchronously at
registration, since the model of the registration call returns it);
all-callable middleware lists never trigger it. -/
theorem c9_registration_validation :
    (∀ (args : List JSVal) (f : JSVal),
       f ∈ (useExtract args).2.2 → isFunc f = false →
       ∃ g, isFunc g = false ∧ g ∈ (useExtract args).2.2
         ∧ Router.useModel args
             = .error ("Router.use() requires a middleware function but got a "
                       ++ jsInspect g))
    ∧ (∀ args : List JSVal, (useExtract args).2.2 ≠ [] →
       (∀ f ∈ (useExtract args).2.2, isFunc f = true) →
       Router.useModel args = .ok (useExtract args).2.2)
    ∧ (∀ (methodName : String) (args : List JSVal) (f : JSVal),
       f ∈ methodExtract args → isFunc f = false →
       ∃ g, isFunc g = false ∧ g ∈ methodExtract args
         ∧ Route.methodModel methodName args
             = .error ("Route." ++ (if methodName = "_all" then "all" else methodName)
                       ++ "() requires callback functions but got a " ++ jsInspect g))
    ∧ (∀ (methodName : String) (args : List JSVal),
       (∀ f ∈ methodExtract args, isFunc f = true) →
       Route.methodModel methodName args = .ok (methodExtract args)) := by
  refine ⟨?_, ?_, ?_, ?_⟩
  · intro args f hf hnf
    obtain ⟨g, hg1, hg2, hg3⟩ := useCheck_bad (useExtract args).2.2 f hf hnf
    have hne : ¬ (useExtract args).2.2.isEmpty := by
      cases hl : (useExtract args).2.2 with
      | nil => rw [hl] at hf; cases hf
      | cons a t => simp [hl]
    exact ⟨g, hg1, hg2, by simp [Router.useModel, hne, hg3]⟩
  · intro args hne hall
    have hne2 : ¬ (useExtract args).2.2.isEmpty := by
      cases hl : (useExtract args).2.2 with
      | nil => exact absurd hl hne
      | cons a t => simp [hl]
    simp [Router.useModel, hne2, useCheck_ok _ hall]
  · intro methodName args f hf hnf
    obtain ⟨g, hg1, hg2, hg3⟩ :=
      methodCheck_bad (if methodName = "_all" then "all" else methodName)
        (methodExtract args) f hf hnf
    exact ⟨g, hg1, hg2, by simp [Route.methodModel, hg3]⟩
  · intro methodName args hall
    simp [Route.methodModel, methodCheck_ok _ _ hall]

theorem c9_registration_validation_witness :
    (∃ g, isFunc g = false ∧ g ∈ (useExtract argsBad).2.2
       ∧ Router.useModel argsBad
           = .error ("Router.use() requires a middleware function but got a "
                     ++ jsInspect g))
    ∧ Router.useModel argsGood = .ok (useExtract argsGood).2.2
    ∧ (∃ g, isFunc g = false ∧ g ∈ methodExtract argsBadRoute
       ∧ Route.methodModel "get" argsBadRoute
           = .error ("Route." ++ (if "get" = "_all" then "all" else "get")
                     ++ "() requires callback functions but got a " ++ jsInspect g)) := by
  have hbad : (useExtract argsBad).2.2 = [JSVal.vfunc "f", JSVal.vother "null" false] := by
    simp [useExtract, argsBad, jsFlatten, isPathLike, jsTruthy, isFunc]
  have hgood : (useExtract argsGood).2.2 = [JSVal.vfunc "g"] := by
    simp [useExtract, argsGood, jsFlatten, isPathLike, jsTruthy, isFunc]
  have hbr : methodExtract argsBadRoute = [JSVal.vfunc "h", JSVal.vstr "oops"] := by
    simp [methodExtract, argsBadRoute, jsTruthy, isFunc]
  refine ⟨?_, ?_, ?_⟩
  · exact c9_registration_validation.1 argsBad (.vother "null" false)
      (hbad ▸ List.Mem.tail _ (List.Mem.head _)) rfl
  · refine c9_registration_validation.2.1 argsGood
      (fun h => List.noConfusion (hgood ▸ h)) ?_
    intro f hf
    have hx : f = JSVal.vfunc "g" := List.mem_singleton.mp (hgood ▸ hf)
    rw [hx]; rfl
  · exact c9_registration_validation.2.2.1 "get" argsBadRoute (.vstr "oops")
      (hbr ▸ List.Mem.tail _ (List.Mem.head _)) rfl

/-- C6: for a bare-middleware layer with a non-empty matched prefix, the
guard of `trim_prefix`: (1) the match is rejected (no trim, no handler) iff
the character of the full path right after the prefix exists and is neither
`/` nor `.`; (2) on acceptance the prefix is trimmed from the context url
and `baseUrl` extended by the prefix (trailing slash stripped); (3) in the
scan, a rejected match resumes `router_next` at the next index without
invoking the middleware. -/
theorem c6_trim_guard :
    (∀ (ph pu lp path : String) (ctx : CtxM),
       trimPrefixCore ph pu lp path ctx = none
         ↔ (lp ≠ "" ∧ ∃ c, path.toList.get? lp.length = some c ∧ c ≠ '/' ∧ c ≠ '.'))
    ∧ (∀ (ph pu lp path : String) (ctx c2 : CtxM) (rem : String) (sl : Bool),
       lp ≠ "" → trimPrefixCore ph pu lp path ctx = some (c2, rem, sl) →
       rem = lp
       ∧ c2.baseUrl = some (pu ++ (if lp.toList.getLast? = some '/'
                                   then lp.dropRight 1 else lp))
       ∧ (sl = false → c2.url = ph ++ (ctx.url.drop (ph.length + lp.length)))
       ∧ (sl = true → ph = "" ∧ c2.url = "/" ++ (ctx.url.drop (ph.length + lp.length))))
    ∧ (∀ (env : HEnv) (st : RState) (path : String) (lparams : ParamMap)
         (lp : String) (keys : List PKey) (rest : List RLayer) (len4 : Bool)
         (beh : HandlerBeh) (c : CtxM) (memo2 : PMemo) (psig : Option String)
         (plog : List PEv),
       process_params env.reg keys st.memo
           { st.ctx with params := some (if env.mergeOpt
                                         then mergeParamsJS lparams env.parentParams
                                         else lparams) }
         = .next c memo2 psig plog →
       sigTruthy psig = false →
       trimPrefixCore env.protohost env.parentUrl lp path c = none →
       dispatchFound env st path lparams lp keys (.mid len4 beh) rest
         = router_next env { st with ctx := c, memo := memo2 } none rest) := by
  have hlen : ∀ s : String, s.length = 0 → s = "" := by
    intro s hs
    cases s with
    | mk l =>
      have : l = [] := List.length_eq_zero.mp (by simpa [String.length] using hs)
      rw [this]
  refine ⟨?_, ?_, ?_⟩
  · intro ph pu lp path ctx
    constructor
    · intro h
      by_cases hlp : lp.length ≠ 0
      · rw [trimPrefixCore, if_pos hlp] at h
        cases hg : path.toList.get? lp.length with
        | none => simp only [hg] at h; exact Option.noConfusion h
        | some ch =>
          simp only [hg] at h
          by_cases hch : ch ≠ '/' ∧ ch ≠ '.'
          · exact ⟨fun he => hlp (by rw [he]; rfl), ch, rfl, hch⟩
          · rw [if_neg hch] at h; cases h
      · rw [trimPrefixCore, if_neg hlp] at h
        cases h
    · intro ⟨hne, ch, hg, hch⟩
      have hlp : lp.length ≠ 0 := fun he => hne (hlen lp he)
      rw [trimPrefixCore, if_pos hlp]
      simp only [hg]
      rw [if_pos hch]
  · intro ph pu lp path ctx c2 rem sl hne hs
    have hlp : lp.length ≠ 0 := fun he => hne (hlen lp he)
    rw [trimPrefixCore, if_pos hlp] at hs
    have happ : trimPrefixCore.trimApply ph pu lp ctx = (c2, rem, sl) := by
      cases hg : path.toList.get? lp.length with
      | none => simp only [hg] at hs; injection hs
      | some ch =>
        simp only [hg] at hs
        by_cases hch : ch ≠ '/' ∧ ch ≠ '.'
        · rw [if_pos hch] at hs; cases hs
        · rw [if_neg hch] at hs; injection hs
    rw [trimPrefixCore.trimApply] at happ
    by_cases hcond : ph = "" ∧ (ph ++ (ctx.url.drop (ph.length + lp.length))).toList.head? ≠ some '/'
    · rw [if_pos hcond] at happ
      injection happ with h1 h23
      injection h23 with h2 h3
      subst h1; subst h2; subst h3
      refine ⟨rfl, rfl, ?_, ?_⟩
      · intro hc; exact absurd hc (by simp)
      · intro _
        refine ⟨hcond.1, ?_⟩
        show "/" ++ (ph ++ ctx.url.drop (ph.length + lp.length))
          = "/" ++ ctx.url.drop (ph.length + lp.length)
        rw [hcond.1]
        rfl
    · rw [if_neg hcond] at happ
      injection happ with h1 h23
      injection h23 with h2 h3
      subst h1; subst h2; subst h3
      refine ⟨rfl, rfl, fun _ => rfl, ?_⟩
      intro hc; exact absurd hc (by simp)
  · intro env st path lparams lp keys rest len4 beh c memo2 psig plog hpp hsig htrim
    rw [dispatchFound.eq_def]
    simp only [hpp]
    simp [hsig, htrim]

theorem c6_trim_guard_witness :
    dispatchFound env0 stOpts "/foobar" [] "/foo" []
        (.mid false (.act id none)) []
      = router_next env0 { stOpts with ctx := { stOpts.ctx with params := some [] }, memo := [] } none [] :=
  c6_trim_guard.2.2 env0 stOpts "/foobar" [] "/foo" [] [] false (.act id none)
    { stOpts.ctx with params := some [] } [] none [] rfl rfl (by decide)

theorem doneF_fields (env : HEnv) (st : RState) (c : CtxM)
    (h : doneF env st = .toNext c) :
    c.baseUrl = env.savedBaseUrl ∧ c.params = env.savedParams
      ∧ c.nextv = env.savedNext := by
  unfold doneF at h
  injection h with hc
  subst hc
  exact ⟨rfl, rfl, rfl⟩

theorem c8_dispatch_step (N : Nat)
    (hP : ∀ (env : HEnv) (st : RState) (sig : Option String)
       (rest : List RLayer) (c : CtxM), rest.length ≤ N →
       router_next env st sig rest = .toNext c →
       c.baseUrl = env.savedBaseUrl ∧ c.params = env.savedParams
         ∧ c.nextv = env.savedNext) :
    ∀ (env : HEnv) (st : RState) (path : String) (lparams : ParamMap)
      (lp : String) (keys : List PKey) (body : RLayerBody) (rest : List RLayer)
      (c : CtxM), rest.length ≤ N →
      dispatchFound env st path lparams lp keys body rest = .toNext c →
      c.baseUrl = env.savedBaseUrl ∧ c.params = env.savedParams
        ∧ c.nextv = env.savedNext := by
  intro env st path lparams lp keys body rest c hle h
  cases body with
  | rte r =>
    rw [dispatchFound.eq_def] at h
    repeat' first | (simp only [] at h) | (split at h)
    all_goals
      first
        | exact absurd h (by simp)
        | exact hP _ _ _ _ _ hle h
  | mid len4 beh =>
    rw [dispatchFound.eq_def] at h
    repeat' first | (simp only [] at h) | (split at h)
    all_goals
      first
        | exact absurd h (by simp)
        | exact hP _ _ _ _ _ hle h

theorem c8_scan_step (N : Nat)
    (hdisp : ∀ (env : HEnv) (st : RState) (path : String) (lparams : ParamMap)
       (lp : String) (keys : List PKey) (body : RLayerBody) (rest : List RLayer)
       (c : CtxM), rest.length ≤ N →
       dispatchFound env st path lparams lp keys body rest = .toNext c →
       c.baseUrl = env.savedBaseUrl ∧ c.params = env.savedParams
         ∧ c.nextv = env.savedNext) :
    ∀ (ls : List RLayer) (env : HEnv) (st : RState) (path : String) (c : CtxM),
      ls.length ≤ N + 1 → scanStack env st path ls = .toNext c →
      c.baseUrl = env.savedBaseUrl ∧ c.params = env.savedParams
        ∧ c.nextv = env.savedNext := by
  intro ls
  induction ls with
  | nil =>
    intro env st path c hle h
    rw [scanStack.eq_def] at h
    exact doneF_fields _ _ _ h
  | cons l tail ihl =>
    intro env st path c hle h
    have htail : tail.length ≤ N := by
      simp only [List.length_cons] at hle
      omega
    rw [scanStack.eq_def] at h
    repeat' first | (simp only [] at h) | (split at h)
    all_goals
      first
        | exact absurd h (by simp)
        | exact doneF_fields _ _ _ h
        | exact ihl _ _ _ _ (Nat.le_trans htail (Nat.le_succ N)) h
        | exact hdisp _ _ _ _ _ _ _ _ _ htail h

theorem c8_restore_aux (n : Nat) :
    (∀ (env : HEnv) (st : RState) (sig : Option String) (rest : List RLayer)
       (c : CtxM), rest.length ≤ n → router_next env st sig rest = .toNext c →
       c.baseUrl = env.savedBaseUrl ∧ c.params = env.savedParams
         ∧ c.nextv = env.savedNext)
    ∧ (∀ (env : HEnv) (st : RState) (path : String) (lparams : ParamMap)
       (lp : String) (keys : List PKey) (body : RLayerBody) (rest : List RLayer)
       (c : CtxM), rest.length ≤ n →
       dispatchFound env st path lparams lp keys body rest = .toNext c →
       c.baseUrl = env.savedBaseUrl ∧ c.params = env.savedParams
         ∧ c.nextv = env.savedNext) := by
  induction n with
  | zero =>
    have hP : ∀ (env : HEnv) (st : RState) (sig : Option String)
        (rest : List RLayer) (c : CtxM), rest.length ≤ 0 →
        router_next env st sig rest = .toNext c →
        c.baseUrl = env.savedBaseUrl ∧ c.params = env.savedParams
          ∧ c.nextv = env.savedNext := by
      intro env st sig rest c hle h
      have hrest : rest = [] := List.length_eq_zero.mp (Nat.le_zero.mp hle)
      subst hrest
      rw [router_next.eq_def] at h
      simp only [List.length_nil, true_or, if_true] at h
      exact doneF_fields _ _ _ h
    exact ⟨hP, c8_dispatch_step 0 hP⟩
  | succ n ih =>
    have hP : ∀ (env : HEnv) (st : RState) (sig : Option String)
        (rest : List RLayer) (c : CtxM), rest.length ≤ n + 1 →
        router_next env st sig rest = .toNext c →
        c.baseUrl = env.savedBaseUrl ∧ c.params = env.savedParams
          ∧ c.nextv = env.savedNext := by
      intro env st sig rest c hle h
      rw [router_next.eq_def] at h
      repeat' first | (simp only [] at h) | (split at h)
      all_goals
        first
          | exact absurd h (by simp)
          | exact doneF_fields _ _ _ h
          | exact c8_scan_step n ih.2 _ _ _ _ _ hle h
    exact ⟨hP, c8_dispatch_step (n + 1) hP⟩

/-- C8: every `Router.handle` call saves `baseUrl`, `params` and the active
continuation before its scan, and every path that calls the original
continuation (scan exhausted, undetermined pathname, `"router"` signal) goes
through `done`, which restores all three — so when control returns to the
continuation these fields equal their values at entry. -/
theorem c8_frame_restore (dec : String → Option String) (r : RouterM)
    (ctx c2 : CtxM) (h : RouterM.handleM dec r ctx = .toNext c2) :
    c2.baseUrl = ctx.baseUrl ∧ c2.params = ctx.params ∧ c2.nextv = ctx.nextv := by
  unfold RouterM.handleM at h
  exact (c8_restore_aux r.stack.length).1 _ _ _ _ _ (Nat.le_refl _) h

theorem c8_frame_restore_witness :
    { ctx0 with originalUrl := some "/foobar" }.baseUrl = ctx0.baseUrl
    ∧ { ctx0 with originalUrl := some "/foobar" }.params = ctx0.params
    ∧ { ctx0 with originalUrl := some "/foobar" }.nextv = ctx0.nextv := by
  have h : RouterM.handleM dec0 routerEmpty ctx0
      = .toNext { ctx0 with originalUrl := some "/foobar" } := by
    simp [RouterM.handleM, router_next, undoState, doneF, ctx0, routerEmpty,
          sigTruthy, setOptionsResponse]
  exact c8_frame_restore dec0 routerEmpty ctx0 _ h

theorem plookup_nil (k : PKey) : plookup [] k = none := rfl

theorem plookup_cons (e : PKey × Option String) (rest : ParamMap) (k : PKey) :
    plookup (e :: rest) k = if e.1 = k then some e.2 else plookup rest k := by
  by_cases h : e.1 = k <;> simp [plookup, List.find?, h]

theorem plookup_pset (m : ParamMap) (k : PKey) (v : Option String) (k2 : PKey) :
    plookup (pset m k v) k2 = if k2 = k then some v else plookup m k2 := by
  induction m with
  | nil =>
    rw [show pset [] k v = [(k, v)] from rfl, plookup_cons]
    by_cases h : k2 = k
    · simp [h]
    · have h1 : ¬ (k = k2) := fun hc => h hc.symm
      simp [h, h1, plookup_nil]
  | cons p rest ih =>
    by_cases hp : p.1 = k
    · rw [show pset (p :: rest) k v = (k, v) :: rest by simp [pset, hp]]
      rw [plookup_cons, plookup_cons]
      by_cases h : k2 = k
      · simp [h]
      · have h1 : ¬ (k = k2) := fun hc => h hc.symm
        have h2 : ¬ (p.1 = k2) := by rw [hp]; exact h1
        simp [h, h1, h2]
    · rw [show pset (p :: rest) k v = p :: pset rest k v by simp [pset, hp]]
      rw [plookup_cons, plookup_cons, ih]
      by_cases h2 : p.1 = k2
      · have hne : ¬ k2 = k := fun hc => hp (h2.trans hc)
        simp [h2, hne]
      · simp [h2]

theorem plookup_pdel (m : ParamMap) (k : PKey) (k2 : PKey) :
    plookup (pdel m k) k2 = if k2 = k then none else plookup m k2 := by
  induction m with
  | nil => by_cases h : k2 = k <;> simp [pdel, plookup_nil, h]
  | cons p rest ih =>
    by_cases hp : p.1 = k
    · rw [show pdel (p :: rest) k = pdel rest k by simp [pdel, hp], ih,
          plookup_cons]
      by_cases h : k2 = k
      · simp [h]
      · have h2 : ¬ (p.1 = k2) := by
          rw [hp]; exact fun hc => h hc.symm
        simp [h, h2]
    · rw [show pdel (p :: rest) k = p :: pdel rest k by simp [pdel, hp],
          plookup_cons, plookup_cons, ih]
      by_cases h2 : p.1 = k2
      · have hne : ¬ k2 = k := fun hc => hp (h2.trans hc)
        simp [h2, hne]
      · simp [h2]

theorem phas_iff_isSome (m : ParamMap) (k : PKey) :
    phas m k = true ↔ (plookup m k).isSome := by
  simp [phas, plookup]

theorem phas_false_none (m : ParamMap) (k : PKey) (h : phas m k = false) :
    plookup m k = none := by
  cases hl : plookup m k with
  | none => rfl
  | some v =>
    have : phas m k = true := (phas_iff_isSome m k).mpr (by rw [hl]; rfl)
    rw [this] at h; cases h

theorem plookup_not_mem (m : ParamMap) (k : PKey)
    (h : k ∉ m.map Prod.fst) : plookup m k = none := by
  unfold plookup
  rw [List.find?_eq_none.mpr]
  · rfl
  · intro e he hek
    exact h (List.mem_map.mpr ⟨e, he, by simpa using hek⟩)

theorem phas_true_mem (m : ParamMap) (k : PKey) (h : phas m k = true) :
    k ∈ m.map Prod.fst := by
  unfold phas at h
  obtain ⟨e, he⟩ := Option.isSome_iff_exists.mp h
  have hm : e.1 = k := by simpa using List.find?_some he
  exact List.mem_map.mpr ⟨e, List.mem_of_find?_eq_some he, hm⟩

theorem plookup_passign (o : ParamMap) :
    ∀ (b : ParamMap) (k : PKey), (o.map Prod.fst).Nodup →
      plookup (passign b o) k = (plookup o k).or (plookup b k) := by
  induction o with
  | nil => intro b k _; simp [passign, plookup_nil]
  | cons e t ih =>
    intro b k hnd
    obtain ⟨k0, v0⟩ := e
    rw [show passign b ((k0, v0) :: t) = passign (pset b k0 v0) t from rfl]
    rw [ih (pset b k0 v0) k (by simpa using hnd.of_cons), plookup_cons,
        plookup_pset]
    by_cases hk : k = k0
    · subst hk
      have hnd2 : (k :: t.map Prod.fst).Nodup := by simpa using hnd
      have hnm : k ∉ t.map Prod.fst := (List.nodup_cons.mp hnd2).1
      rw [plookup_not_mem t k hnm]
      simp
    · have hk2 : ¬ (k0 = k) := fun hc => hk hc.symm
      simp [hk, hk2]

theorem pset_fst (m : ParamMap) (k : PKey) (v : Option String) :
    (pset m k v).map Prod.fst
      = if phas m k then m.map Prod.fst else m.map Prod.fst ++ [k] := by
  induction m with
  | nil => simp [pset, phas]
  | cons e t ih =>
    by_cases he : e.1 = k
    · rw [show pset (e :: t) k v = (k, v) :: t by simp [pset, he]]
      have hp : phas (e :: t) k = true := by
        simp [phas, List.find?, he]
      simp [hp, he]
    · rw [show pset (e :: t) k v = e :: pset t k v by simp [pset, he]]
      have hp : phas (e :: t) k = phas t k := by
        simp [phas, List.find?, he]
      rw [List.map_cons, ih, hp]
      by_cases ht : phas t k <;> simp [ht]

theorem mem_phas_true (m : ParamMap) (k : PKey) (h : k ∈ m.map Prod.fst) :
    phas m k = true := by
  obtain ⟨e, he, hek⟩ := List.mem_map.mp h
  simp only [phas]
  exact List.find?_isSome.mpr ⟨e, he, by simp [hek]⟩

theorem pset_nodup (m : ParamMap) (k : PKey) (v : Option String)
    (h : (m.map Prod.fst).Nodup) : ((pset m k v).map Prod.fst).Nodup := by
  rw [pset_fst]
  by_cases hp : phas m k
  · simp [hp, h]
  · have hnm : k ∉ m.map Prod.fst := fun hc =>
      (by simpa using hp : ¬ phas m k = true) (mem_phas_true m k hc)
    simp [hp, List.nodup_append, h, hnm]

theorem pdel_nodup (m : ParamMap) (k : PKey)
    (h : (m.map Prod.fst).Nodup) : ((pdel m k).map Prod.fst).Nodup := by
  have hsub : (pdel m k).map Prod.fst |>.Sublist (m.map Prod.fst) :=
    List.Sublist.map Prod.fst (List.filter_sublist m)
  exact h.sublist hsub

theorem renumGo_nodup (o : Nat) :
    ∀ (j : Nat) (c : ParamMap), (c.map Prod.fst).Nodup →
      ((renumGo o j c).map Prod.fst).Nodup := by
  intro j
  induction j with
  | zero => intro c h; exact h
  | succ j ih =>
    intro c h
    rw [show renumGo o (j + 1) c
          = renumGo o j (if j < o
                         then pdel (pset c (.num (j + o)) (pread c (.num j))) (.num j)
                         else pset c (.num (j + o)) (pread c (.num j))) from rfl]
    apply ih
    by_cases hj : j < o
    · simp only [hj, if_true]
      exact pdel_nodup _ _ (pset_nodup _ _ _ h)
    · simp only [hj, if_false]
      exact pset_nodup _ _ _ h

theorem firstGapAux_eq (c : ParamMap) (m : Nat)
    (hcont : ∀ t, phas c (.num t) = true ↔ t < m) :
    ∀ (fuel start : Nat), start ≤ m → m - start < fuel →
      firstGapAux c start fuel = m := by
  intro fuel
  induction fuel with
  | zero => intro start h1 h2; omega
  | succ f ih =>
    intro start h1 h2
    by_cases hs : start = m
    · subst hs
      have : phas c (.num start) = false := by
        cases hb : phas c (.num start)
        · rfl
        · exact absurd ((hcont start).mp hb) (by omega)
      simp [firstGapAux, this]
    · have hlt : start < m := Nat.lt_of_le_of_ne h1 hs
      have : phas c (.num start) = true := (hcont start).mpr hlt
      rw [show firstGapAux c start (f + 1)
            = if phas c (.num start) then firstGapAux c (start + 1) f
              else start from rfl, if_pos (by rw [this])]
      exact ih (start + 1) (by omega) (by omega)

theorem length_ge_of_contig (c : ParamMap) (m : Nat)
    (hcont : ∀ t, phas c (.num t) = true ↔ t < m) : m ≤ c.length := by
  have hsub : ((List.range m).map PKey.num) ⊆ c.map Prod.fst := by
    intro x hx
    obtain ⟨t, ht, rfl⟩ := List.mem_map.mp hx
    exact phas_true_mem c _ ((hcont t).mpr (List.mem_range.mp ht))
  have hnd : ((List.range m).map PKey.num).Nodup :=
    (List.nodup_range m).map (fun a b hab => by injection hab)
  calc m = ((List.range m).map PKey.num).length := by simp
    _ = ((List.range m).map PKey.num).toFinset.card :=
        (List.toFinset_card_of_nodup hnd).symm
    _ ≤ (c.map Prod.fst).toFinset.card := Finset.card_le_card (fun x hx => by
        rw [List.mem_toFinset] at hx ⊢
        exact hsub hx)
    _ ≤ (c.map Prod.fst).length := List.toFinset_card_le _
    _ = c.length := by simp

theorem firstGap_eq (c : ParamMap) (m : Nat)
    (hcont : ∀ t, phas c (.num t) = true ↔ t < m) : firstGap c = m := by
  have hle : m ≤ c.length := length_ge_of_contig c m hcont
  exact firstGapAux_eq c m hcont (c.length + 1) 0 (by omega) (by omega)

theorem renumGo_invariant (c : ParamMap) (m o : Nat)
    (hcont : ∀ t, phas c (.num t) = true ↔ t < m) (ho : 0 < o) :
    ∀ (j : Nat) (S : ParamMap), j ≤ m →
      (∀ t, plookup S (.num t)
         = if t < j then plookup c (.num t)
           else if t < m ∧ t < o then none
           else if t < m ∧ t < j + o then plookup c (.num t)
           else if j + o ≤ t ∧ t < m + o then plookup c (.num (t - o))
           else none) →
      (∀ s, plookup S (.str s) = plookup c (.str s)) →
      (∀ t, plookup (renumGo o j S) (.num t)
         = if o ≤ t ∧ t < m + o then plookup c (.num (t - o)) else none)
      ∧ (∀ s, plookup (renumGo o j S) (.str s) = plookup c (.str s)) := by
  intro j
  induction j with
  | zero =>
    intro S _ hS hSs
    refine ⟨?_, hSs⟩
    intro t
    rw [show renumGo o 0 S = S from rfl, hS t]
    split_ifs <;> first | rfl | omega
  | succ j ih =>
    intro S hj hS hSs
    have hj' : j < m := by omega
    have hcj : (plookup c (.num j)).isSome :=
      (phas_iff_isSome c (.num j)).mp ((hcont j).mpr hj')
    have hread : some (pread S (.num j)) = plookup c (.num j) := by
      obtain ⟨w, hw⟩ := Option.isSome_iff_exists.mp hcj
      have hSj : plookup S (.num j) = plookup c (.num j) := by
        rw [hS j, if_pos (by omega)]
      rw [show pread S (.num j) = (plookup S (.num j)).join from rfl, hSj, hw]
      rfl
    have hstep : renumGo o (j + 1) S
        = renumGo o j (if j < o
                       then pdel (pset S (.num (j + o)) (pread S (.num j))) (.num j)
                       else pset S (.num (j + o)) (pread S (.num j))) := rfl
    rw [hstep]
    apply ih _ (by omega)
    · intro t
      by_cases hjo : j < o
      · rw [if_pos hjo, plookup_pdel, plookup_pset]
        by_cases htj : t = j
        · subst htj
          rw [if_pos rfl, if_neg (by omega), if_pos ⟨hj', hjo⟩]
        · rw [if_neg (by simp [htj])]
          by_cases hto : t = j + o
          · subst hto
            rw [if_pos rfl, if_neg (by omega), if_neg (by omega),
                if_neg (by omega), if_pos ⟨by omega, by omega⟩]
            have hsub : j + o - o = j := by omega
            rw [hsub]
            exact hread
          · rw [if_neg (by simp [hto]), hS t]
            split_ifs <;> first | rfl | omega
      · rw [if_neg hjo, plookup_pset]
        by_cases hto : t = j + o
        · subst hto
          rw [if_pos rfl, if_neg (by omega), if_neg (by omega),
              if_neg (by omega), if_pos ⟨by omega, by omega⟩]
          have hsub : j + o - o = j := by omega
          rw [hsub]
          exact hread
        · rw [if_neg (by simp [hto]), hS t]
          split_ifs <;> first | rfl | omega
    · intro s
      by_cases hjo : j < o
      · rw [if_pos hjo, plookup_pdel, if_neg (by simp), plookup_pset,
            if_neg (by simp)]
        exact hSs s
      · rw [if_neg hjo, plookup_pset, if_neg (by simp)]
        exact hSs s

/-- C5: `mergeParams`: when either side lacks a positional property `0` (in
particular when neither side has one, as the claim states) the merge is
key-wise with child precedence; when both sides have positional captures
(contiguous from 0, as `Layer.match` produces them), the parent's
positionals survive at their indices, the child's positionals are renumbered
to continue after the parent's highest index preserving order, no other
positional indices appear, and named captures merge with child
precedence. -/
theorem c5_mergeParams :
    (∀ (c p : ParamMap) (k : PKey),
       (c.map Prod.fst).Nodup →
       (phas c (.num 0) = false ∨ phas p (.num 0) = false) →
       plookup (mergeParams c p) k = (plookup c k).or (plookup p k))
    ∧ (∀ (c p : ParamMap) (m o : Nat),
       (c.map Prod.fst).Nodup →
       (∀ t, phas c (.num t) = true ↔ t < m) →
       (∀ t, phas p (.num t) = true ↔ t < o) →
       0 < m → 0 < o →
       (∀ t, t < o → plookup (mergeParams c p) (.num t) = plookup p (.num t))
       ∧ (∀ j, j < m →
           plookup (mergeParams c p) (.num (o + j)) = plookup c (.num j))
       ∧ (∀ t, o + m ≤ t → plookup (mergeParams c p) (.num t) = none)
       ∧ (∀ s, plookup (mergeParams c p) (.str s)
            = (plookup c (.str s)).or (plookup p (.str s)))) := by
  constructor
  · intro c p k hnd h0
    rw [mergeParams, if_pos]
    · exact plookup_passign c p k hnd
    · rcases h0 with h | h
      · exact Or.inl (by rw [h]; simp)
      · exact Or.inr (by rw [h]; simp)
  · intro c p m o hnd hcontc hcontp hm ho
    have hc0 : phas c (.num 0) = true := (hcontc 0).mpr hm
    have hp0 : phas p (.num 0) = true := (hcontp 0).mpr ho
    have hcond : ¬ (¬ (phas c (.num 0) = true) ∨ ¬ (phas p (.num 0) = true)) :=
      fun h => h.elim (fun h1 => h1 hc0) (fun h2 => h2 hp0)
    have hmerge : mergeParams c p
        = passign p (renumGo (firstGap p) (firstGap c) c) := by
      rw [mergeParams, if_neg hcond]
    rw [hmerge, firstGap_eq c m hcontc, firstGap_eq p o hcontp]
    have hbase : ∀ t, plookup c (.num t)
        = if t < m then plookup c (.num t)
          else if t < m ∧ t < o then none
          else if t < m ∧ t < m + o then plookup c (.num t)
          else if m + o ≤ t ∧ t < m + o then plookup c (.num (t - o))
          else none := by
      intro t
      by_cases htm : t < m
      · rw [if_pos htm]
      · rw [if_neg htm, if_neg (by omega), if_neg (by omega),
            if_neg (by omega)]
        apply phas_false_none
        cases hb : phas c (.num t)
        · rfl
        · exact absurd ((hcontc t).mp hb) htm
    obtain ⟨hnum, hstr⟩ :=
      renumGo_invariant c m o hcontc ho m c (Nat.le_refl m) hbase (fun _ => rfl)
    have hsfnd : ((renumGo o m c).map Prod.fst).Nodup := renumGo_nodup o m c hnd
    have hpas : ∀ k, plookup (passign p (renumGo o m c)) k
        = (plookup (renumGo o m c) k).or (plookup p k) :=
      fun k => plookup_passign (renumGo o m c) p k hsfnd
    refine ⟨?_, ?_, ?_, ?_⟩
    · intro t hto
      rw [hpas, hnum t, if_neg (by omega)]
      simp [Option.or]
    · intro j hj
      rw [hpas, hnum (o + j), if_pos ⟨by omega, by omega⟩,
          show o + j - o = j by omega]
      have : (plookup c (.num j)).isSome :=
        (phas_iff_isSome c (.num j)).mp ((hcontc j).mpr hj)
      obtain ⟨w, hw⟩ := Option.isSome_iff_exists.mp this
      rw [hw]
      rfl
    · intro t ht
      rw [hpas, hnum t, if_neg (by omega)]
      have hp : plookup p (.num t) = none := by
        apply phas_false_none
        cases hb : phas p (.num t)
        · rfl
        · exact absurd ((hcontp t).mp hb) (by omega)
      rw [hp]
      rfl
    · intro s
      rw [hpas, hstr s]

theorem c5_mergeParams_witness :
    plookup (mergeParams c5child c5parent) (.num 0) = some (some "p0")
    ∧ plookup (mergeParams c5child c5parent) (.num (1 + 0)) = some (some "c0")
    ∧ plookup (mergeParams c5child c5parent) (.num (1 + 1)) = some (some "c1")
    ∧ plookup (mergeParams c5child c5parent) (.num 3) = none
    ∧ plookup (mergeParams c5child c5parent) (.str "n") = some (some "cn")
    ∧ plookup (mergeParams c5child c5parent) (.str "q") = some (some "pq") := by
  have hcc : ∀ t, phas c5child (.num t) = true ↔ t < 2 := by
    intro t
    match t with
    | 0 => simp [c5child, phas, List.find?]
    | 1 => simp [c5child, phas, List.find?]
    | n + 2 =>
      constructor
      · intro h
        simp [c5child, phas, List.find?] at h
      · intro h
        omega
  have hcp : ∀ t, phas c5parent (.num t) = true ↔ t < 1 := by
    intro t
    match t with
    | 0 => simp [c5parent, phas, List.find?]
    | n + 1 =>
      constructor
      · intro h
        simp [c5parent, phas, List.find?] at h
      · intro h
        omega
  have h := c5_mergeParams.2 c5child c5parent 2 1 (by decide) hcc hcp
    (by omega) (by omega)
  refine ⟨(h.1 0 (by omega)).trans (by decide),
          (h.2.1 0 (by omega)).trans (by decide),
          (h.2.1 1 (by omega)).trans (by decide),
          h.2.2.1 3 (by omega),
          (h.2.2.2 "n").trans (by decide),
          (h.2.2.2 "q").trans (by decide)⟩
